import Mathlib

/-! Verification of the buffered-reader core of the repository: the byte-count
limitor (`src/buffered-reader/src/limitor.rs`) and the OpenPGP partial-body
de-chunker (`src/openpgp/src/partial_body.rs`), embedded shallowly.  Bytes are
modelled as `Nat`, byte streams as `List Nat`; every mutating reader operation
is a function from the reader state to a result carrying the returned view and
the post-state. -/

/-- The two error kinds that cross the core boundary (spec §7):
a genuine I/O error from the byte source, and the synthesised
unexpected-end-of-file of the hard variants. -/
inductive IoErr : Type where
  | eof
  | generic
  deriving Repr, DecidableEq

/-- Result of a mutating reader operation that can fail: the returned view and
post-state, an I/O error together with the post-state the Rust `self` was left
in, or a process abort (a failed assertion / `unreachable!`). -/
inductive OpRes (σ : Type) : Type where
  | ok (view : List Nat) (s : σ)
  | err (e : IoErr) (s : σ)
  | abort
  deriving Repr, DecidableEq

/-- Result of `consume`, which in Rust returns a plain slice and can only fail
by assertion (process abort). -/
inductive CRes (σ : Type) : Type where
  | ok (view : List Nat) (s : σ)
  | abort
  deriving Repr, DecidableEq

/-- Modelled from the spec: the leaf readers of §2/§4.1 (a fixed in-memory
slice, or the wrapper over a pull-style byte source of §6), which are not part
of the selected sources.  `rem` is the unconsumed content.  When `failAfter`
is set the underlying source fails with an I/O error once the buffered `rem`
is exhausted, instead of reporting end-of-stream. -/
structure Leaf : Type where
  rem : List Nat
  failAfter : Bool
  deriving Repr, DecidableEq

/-- Modelled from the spec (§4.1 `data`): return a view of everything
buffered; a request beyond the buffered content of a failing source surfaces
the source's I/O error. -/
def Leaf.data (r : Leaf) (amount : Nat) : OpRes Leaf :=
  if r.failAfter ∧ r.rem.length < amount then .err .generic r else .ok r.rem r

/-- Modelled from the spec (§4.1 `data_hard`): like `data` but an
unexpected-end-of-file error when fewer than `amount` bytes are available. -/
def Leaf.data_hard (r : Leaf) (amount : Nat) : OpRes Leaf :=
  match Leaf.data r amount with
  | .ok v s => if v.length < amount then .err .eof s else .ok v s
  | other => other

/-- Modelled from the spec (§4.1 `consume`): advance the cursor by `amount`
(asserting that much is buffered) and return the consumed bytes plus the
buffered tail. -/
def Leaf.consume (r : Leaf) (amount : Nat) : CRes Leaf :=
  if amount ≤ r.rem.length then .ok r.rem ⟨r.rem.drop amount, r.failAfter⟩
  else .abort

/-- Modelled from the spec (§4.1 `data_consume`): peek, then consume the
actually available length, returning the post-consume view. -/
def Leaf.data_consume (r : Leaf) (amount : Nat) : OpRes Leaf :=
  match Leaf.data r amount with
  | .ok v s =>
    match Leaf.consume s (min amount v.length) with
    | .ok w s' => .ok w s'
    | .abort => .abort
  | other => other

/-- Modelled from the spec (§4.1 `data_consume_hard`): like `data_consume`
but failing with unexpected-end-of-file if fewer than `amount` bytes are
available. -/
def Leaf.data_consume_hard (r : Leaf) (amount : Nat) : OpRes Leaf :=
  match Leaf.data_hard r amount with
  | .ok v s =>
    match Leaf.consume s (min amount v.length) with
    | .ok w s' => .ok w s'
    | .abort => .abort
  | other => other

/-- Modelled from the spec (§4.1): the generic helper that converts
`data`/`consume` into a byte-source `read`, serving from the buffer
(`buffered_reader_generic_read_impl`, not among the selected sources). -/
def generic_read {σ : Type} (dataF : σ → Nat → OpRes σ) (consumeF : σ → Nat → CRes σ)
    (s : σ) (n : Nat) : OpRes σ :=
  match dataF s n with
  | .ok v s' =>
    let amount := min n v.length
    match consumeF s' amount with
    | .ok _ s'' => .ok (v.take amount) s''
    | .abort => .abort
  | .err e s' => .err e s'
  | .abort => .abort

/-- Modelled from the spec (§4.1): the `read` of a leaf is the generic
derivation from its `data`/`consume`. -/
def Leaf.read (r : Leaf) (n : Nat) : OpRes Leaf :=
  generic_read Leaf.data Leaf.consume r n

/-- Modelled from the spec (§4.1): the capability set every buffered reader
exposes, bundled so a filter can be stacked over an arbitrary inner reader
exactly as the Rust `BufferedReader` trait object is. -/
structure Impl (σ : Type) : Type where
  data : σ → Nat → OpRes σ
  dataHard : σ → Nat → OpRes σ
  consume : σ → Nat → CRes σ
  dataConsume : σ → Nat → OpRes σ
  dataConsumeHard : σ → Nat → OpRes σ
  read : σ → Nat → OpRes σ

def leafImpl : Impl Leaf :=
  ⟨Leaf.data, Leaf.data_hard, Leaf.consume, Leaf.data_consume,
   Leaf.data_consume_hard, Leaf.read⟩

/-- `BufferedReaderLimitor` (src/buffered-reader/src/limitor.rs:8-12): the
inner reader and the remaining byte budget (`limit : u64`). -/
structure BufferedReaderLimitor (σ : Type) : Type where
  reader : σ
  limit : Nat
  deriving Repr, DecidableEq

namespace BufferedReaderLimitor

variable {σ : Type}

/-- `data` (limitor.rs:33-45): clip the request to the budget, delegate,
truncate the returned view to the budget. -/
def data (I : Impl σ) (s : BufferedReaderLimitor σ) (amount : Nat) :
    OpRes (BufferedReaderLimitor σ) :=
  let amount' := min amount s.limit
  match I.data s.reader amount' with
  | .ok buffer r' =>
    if buffer.length > s.limit then .ok (buffer.take s.limit) ⟨r', s.limit⟩
    else .ok buffer ⟨r', s.limit⟩
  | .err e r' => .err e ⟨r', s.limit⟩
  | .abort => .abort

/-- `data_hard`: the limitor does not override it, so it is the trait default
(modelled from the spec §4.1): `data`, then fail with unexpected-eof on a
short view. -/
def data_hard (I : Impl σ) (s : BufferedReaderLimitor σ) (amount : Nat) :
    OpRes (BufferedReaderLimitor σ) :=
  match data I s amount with
  | .ok v s' => if v.length < amount then .err .eof s' else .ok v s'
  | other => other

/-- `consume` (limitor.rs:47-52): assert `amount ≤ limit`, decrement the
budget, delegate, and clamp the returned view to `new limit + amount`. -/
def consume (I : Impl σ) (s : BufferedReaderLimitor σ) (amount : Nat) :
    CRes (BufferedReaderLimitor σ) :=
  if amount ≤ s.limit then
    let limit' := s.limit - amount
    match I.consume s.reader amount with
    | .ok d r' => .ok (d.take (min (limit' + amount) d.length)) ⟨r', limit'⟩
    | .abort => .abort
  else .abort

/-- `data_consume` (limitor.rs:54-63): clip the request to the budget,
delegate, decrement the budget by the clipped amount on success, and clamp
the view to `new limit + clipped amount`. -/
def data_consume (I : Impl σ) (s : BufferedReaderLimitor σ) (amount : Nat) :
    OpRes (BufferedReaderLimitor σ) :=
  let amount' := min amount s.limit
  match I.dataConsume s.reader amount' with
  | .ok buffer r' =>
    let limit' := s.limit - amount'
    .ok (buffer.take (min buffer.length (limit' + amount'))) ⟨r', limit'⟩
  | .err e r' => .err e ⟨r', s.limit⟩
  | .abort => .abort

/-- `data_consume_hard` (limitor.rs:65-76): fail with unexpected-eof when the
request exceeds the budget, otherwise delegate and decrement. -/
def data_consume_hard (I : Impl σ) (s : BufferedReaderLimitor σ) (amount : Nat) :
    OpRes (BufferedReaderLimitor σ) :=
  if amount > s.limit then .err .eof s
  else
    match I.dataConsumeHard s.reader amount with
    | .ok buffer r' =>
      let limit' := s.limit - amount
      .ok (buffer.take (min buffer.length (limit' + amount))) ⟨r', limit'⟩
    | .err e r' => .err e ⟨r', s.limit⟩
    | .abort => .abort

/-- The limitor's `io::Read` (limitor.rs:23-28): clip the request to the
budget and delegate to the inner reader's `read`; the budget itself is left
unchanged by this code path. -/
def read (I : Impl σ) (s : BufferedReaderLimitor σ) (n : Nat) :
    OpRes (BufferedReaderLimitor σ) :=
  let len := min s.limit n
  match I.read s.reader len with
  | .ok bytes r' => .ok bytes ⟨r', s.limit⟩
  | .err e r' => .err e ⟨r', s.limit⟩
  | .abort => .abort

end BufferedReaderLimitor

/-- The limitor's capability set over an arbitrary inner reader. -/
def limitorImpl {σ : Type} (I : Impl σ) : Impl (BufferedReaderLimitor σ) :=
  ⟨BufferedReaderLimitor.data I, BufferedReaderLimitor.data_hard I,
   BufferedReaderLimitor.consume I, BufferedReaderLimitor.data_consume I,
   BufferedReaderLimitor.data_consume_hard I, BufferedReaderLimitor.read I⟩

/-- The capability operations a caller can issue, with their amounts. -/
inductive Op : Type where
  | data (a : Nat)
  | dataHard (a : Nat)
  | consume (a : Nat)
  | dataConsume (a : Nat)
  | dataConsumeHard (a : Nat)
  | readOp (n : Nat)
  deriving Repr, DecidableEq

/-- What one operation observably produced. -/
inductive Obs : Type where
  | okv (view : List Nat)
  | errv (e : IoErr)
  | abortv
  deriving Repr, DecidableEq

def runOp {σ : Type} (I : Impl σ) (s : σ) : Op → OpRes σ
  | .data a => I.data s a
  | .dataHard a => I.dataHard s a
  | .consume a =>
    match I.consume s a with
    | .ok v s' => .ok v s'
    | .abort => .abort
  | .dataConsume a => I.dataConsume s a
  | .dataConsumeHard a => I.dataConsumeHard s a
  | .readOp n => I.read s n

/-- Run a sequence of operations, recording what each returned; the run stops
at the first I/O error or abort. -/
def runTr {σ : Type} (I : Impl σ) : σ → List Op → List Obs × σ
  | s, [] => ([], s)
  | s, op :: ops =>
    match runOp I s op with
    | .ok v s' =>
      let rest := runTr I s' ops
      (.okv v :: rest.1, rest.2)
    | .err e s' => ([.errv e], s')
    | .abort => ([.abortv], s)

/-- The bytes an operation delivered (advanced the cursor past): `consume`
delivers the first `a` bytes of its view, the combined peek-consumes deliver
`min a (length of the view)` bytes, `read` delivers the returned bytes, and a
plain peek delivers nothing. -/
def consumedOf : Op → Obs → List Nat
  | .consume a, .okv v => v.take a
  | .dataConsume a, .okv v => v.take (min a v.length)
  | .dataConsumeHard a, .okv v => v.take (min a v.length)
  | .readOp _, .okv v => v
  | _, _ => []

/-- All bytes delivered over a recorded run. -/
def delivered (ops : List Op) (tr : List Obs) : List Nat :=
  (List.zipWith consumedOf ops tr).flatten

/-- OpenPGP body-length header outcomes (spec §6). -/
inductive BodyLength : Type where
  | Full (len : Nat)
  | Partial (len : Nat)
  | Indeterminate
  deriving Repr, DecidableEq

/-- Result of reading one length header from a reader. -/
inductive PRes : Type where
  | ok (bl : BodyLength) (r : Leaf)
  | err (e : IoErr) (r : Leaf)
  | abort
  deriving Repr, DecidableEq

/-- The new-format length encoding as a pure function on the byte list:
one octet below 192 is a full length; 192–223 begins a two-octet full
length; 224–254 is a one-octet partial length `2 ^ (octet mod 32)`;
255 begins a five-octet full length.  Returns the parsed header and the
remaining bytes. -/
def parseBL : List Nat → Option (BodyLength × List Nat)
  | [] => none
  | o1 :: rest =>
    if o1 < 192 then some (.Full o1, rest)
    else if o1 < 224 then
      match rest with
      | o2 :: rest' => some (.Full ((o1 - 192) * 256 + o2 + 192), rest')
      | [] => none
    else if o1 < 255 then some (.Partial (2 ^ (o1 % 32)), rest)
    else
      match rest with
      | b1 :: b2 :: b3 :: b4 :: rest' =>
        some (.Full (((b1 * 256 + b2) * 256 + b3) * 256 + b4), rest')
      | _ => none

/-- Modelled from the spec (§6): `read_body_length_new_format`, the external
length-header helper the partial-body filter depends on; it is not among the
selected sources.  It reads 1–5 bytes from the reader with its standard
consuming operations and decodes them per the new-format encoding. -/
def body_length_new_format (r : Leaf) : PRes :=
  match Leaf.data_consume_hard r 1 with
  | .err e r' => .err e r'
  | .abort => .abort
  | .ok v r' =>
    let o1 := v.getD 0 0
    if o1 < 192 then .ok (.Full o1) r'
    else if o1 < 224 then
      match Leaf.data_consume_hard r' 1 with
      | .err e r'' => .err e r''
      | .abort => .abort
      | .ok v2 r'' => .ok (.Full ((o1 - 192) * 256 + v2.getD 0 0 + 192)) r''
    else if o1 < 255 then .ok (.Partial (2 ^ (o1 % 32))) r'
    else
      match Leaf.data_consume_hard r' 4 with
      | .err e r'' => .err e r''
      | .abort => .abort
      | .ok v4 r'' =>
        .ok (.Full (((v4.getD 0 0 * 256 + v4.getD 1 0) * 256 + v4.getD 2 0) * 256
          + v4.getD 3 0)) r''

theorem parseBL_shrinks {l rest : List Nat} {bl : BodyLength}
    (h : parseBL l = some (bl, rest)) : rest.length < l.length := by
  cases l with
  | nil => simp [parseBL] at h
  | cons o1 t =>
    by_cases h1 : o1 < 192
    · simp [parseBL, h1] at h
      rw [← h.2]; simp
    · by_cases h2 : o1 < 224
      · cases t with
        | nil => simp [parseBL, h1, h2] at h
        | cons o2 t' =>
          simp [parseBL, h1, h2] at h
          rw [← h.2]; simp; omega
      · by_cases h3 : o1 < 255
        · simp [parseBL, h1, h2, h3] at h
          rw [← h.2]; simp
        · match t with
          | [] => simp [parseBL, h1, h2, h3] at h
          | [_] => simp [parseBL, h1, h2, h3] at h
          | [_, _] => simp [parseBL, h1, h2, h3] at h
          | [_, _, _] => simp [parseBL, h1, h2, h3] at h
          | b1 :: b2 :: b3 :: b4 :: t' =>
            simp [parseBL, h1, h2, h3] at h
            rw [← h.2]; simp; omega

theorem Leaf.read_eq (r : Leaf) (n : Nat) :
    Leaf.read r n =
      if r.failAfter ∧ r.rem.length < n then .err .generic r
      else .ok (r.rem.take (min n r.rem.length))
        ⟨r.rem.drop (min n r.rem.length), r.failAfter⟩ := by
  by_cases h : r.failAfter ∧ r.rem.length < n
  · simp [Leaf.read, generic_read, Leaf.data, h]
  · simp [Leaf.read, generic_read, Leaf.data, Leaf.consume, h, Nat.min_le_right]

theorem Leaf.data_consume_hard_eq (r : Leaf) (a : Nat) :
    Leaf.data_consume_hard r a =
      if r.rem.length < a then
        .err (if r.failAfter then .generic else .eof) r
      else .ok r.rem ⟨r.rem.drop a, r.failAfter⟩ := by
  by_cases h : r.rem.length < a
  · cases hf : r.failAfter
    · simp [Leaf.data_consume_hard, Leaf.data_hard, Leaf.data, h, hf]
    · simp [Leaf.data_consume_hard, Leaf.data_hard, Leaf.data, h, hf]
  · have ha : min a r.rem.length = a := by omega
    simp [Leaf.data_consume_hard, Leaf.data_hard, Leaf.data, Leaf.consume, h, ha, Nat.le_of_not_lt h]

theorem Leaf.data_consume_eq (r : Leaf) (a : Nat) :
    Leaf.data_consume r a =
      if r.failAfter ∧ r.rem.length < a then .err .generic r
      else .ok r.rem ⟨r.rem.drop (min a r.rem.length), r.failAfter⟩ := by
  by_cases h : r.failAfter ∧ r.rem.length < a
  · simp [Leaf.data_consume, Leaf.data, h]
  · simp [Leaf.data_consume, Leaf.data, Leaf.consume, h, Nat.min_le_right]

/-- Agreement between the reader-based header parser and the pure one:
the parser succeeds exactly when `parseBL` does, on the same value and
remainder, and it never aborts. -/
theorem body_length_agree (r : Leaf) :
    (∀ bl r', body_length_new_format r = .ok bl r' →
      parseBL r.rem = some (bl, r'.rem) ∧ r'.failAfter = r.failAfter) ∧
    (∀ e r', body_length_new_format r = .err e r' → parseBL r.rem = none) ∧
    body_length_new_format r ≠ .abort := by
  obtain ⟨rem, flag⟩ := r
  cases rem with
  | nil => simp [body_length_new_format, Leaf.data_consume_hard_eq, parseBL]
  | cons o1 t =>
    have h1 : Leaf.data_consume_hard ⟨o1 :: t, flag⟩ 1 =
        .ok (o1 :: t) ⟨t, flag⟩ := by
      simp [Leaf.data_consume_hard_eq]
    by_cases c1 : o1 < 192
    · simp [body_length_new_format, h1, c1, parseBL]
    · by_cases c2 : o1 < 224
      · cases t with
        | nil =>
          simp [body_length_new_format, h1, c1, c2, parseBL,
            Leaf.data_consume_hard_eq]
        | cons o2 t' =>
          have h2 : Leaf.data_consume_hard ⟨o2 :: t', flag⟩ 1 =
              .ok (o2 :: t') ⟨t', flag⟩ := by
            simp [Leaf.data_consume_hard_eq]
          simp [body_length_new_format, h1, h2, c1, c2, parseBL]
      · by_cases c3 : o1 < 255
        · simp [body_length_new_format, h1, c1, c2, c3, parseBL]
        · match t with
          | [] =>
            simp [body_length_new_format, h1, c1, c2, c3, parseBL,
              Leaf.data_consume_hard_eq]
          | [x1] =>
            simp [body_length_new_format, h1, c1, c2, c3, parseBL,
              Leaf.data_consume_hard_eq]
          | [x1, x2] =>
            simp [body_length_new_format, h1, c1, c2, c3, parseBL,
              Leaf.data_consume_hard_eq]
          | [x1, x2, x3] =>
            simp [body_length_new_format, h1, c1, c2, c3, parseBL,
              Leaf.data_consume_hard_eq]
          | b1 :: b2 :: b3 :: b4 :: t' =>
            have h4 : Leaf.data_consume_hard ⟨b1 :: b2 :: b3 :: b4 :: t', flag⟩ 4 =
                .ok (b1 :: b2 :: b3 :: b4 :: t') ⟨t', flag⟩ := by
              simp [Leaf.data_consume_hard_eq]
            simp [body_length_new_format, h1, h4, c1, c2, c3, parseBL]

theorem body_length_ok_rem {r : Leaf} {bl : BodyLength} {r' : Leaf}
    (h : body_length_new_format r = .ok bl r') :
    r'.rem.length < r.rem.length := by
  have := (body_length_agree r).1 bl r' h
  exact parseBL_shrinks this.1

/-- `BufferedReaderPartialBodyFilter` (src/openpgp/src/partial_body.rs:13-31):
the inner reader, the count of unread bytes in the current chunk
(`partial_body_length : u32`), the last-chunk flag, and the optional side
buffer with its cursor. -/
structure BufferedReaderPartialBodyFilter : Type where
  reader : Leaf
  partial_body_length : Nat
  last : Bool
  buffer : Option (List Nat)
  cursor : Nat
  deriving Repr, DecidableEq

/-- `new` (partial_body.rs:37-46). -/
def BufferedReaderPartialBodyFilter.new (reader : Leaf) (pbl : Nat) :
    BufferedReaderPartialBodyFilter :=
  ⟨reader, pbl, false, none, 0⟩

/-- Exit state of the buffering loop of `do_fill_buffer`: the gathered
bytes, the inner reader, counter and flag afterwards, and the pending error
if the loop stopped on one. -/
inductive FillRes : Type where
  | done (gathered : List Nat) (r : Leaf) (pbl : Nat) (lastf : Bool) (e : Option IoErr)
  | abort
  deriving Repr, DecidableEq

/-- The loop of `do_fill_buffer` (partial_body.rs:77-138): read up to
`min(partial body length, space left)` bytes from the inner reader; a short
read ends the loop (inner end-of-stream), an error ends it with the error
pending; once the buffer is full or the last chunk is reached the loop ends;
otherwise the counter must be zero (assertion) and one length header is
parsed, setting the counter and possibly the last-chunk flag.  An
`Indeterminate` header is `unreachable!()` — a process abort. -/
def fillLoop : Nat → Nat → List Nat → Leaf → Nat → Bool → FillRes
  | 0, _, _, _, _, _ => .abort
  | fuel + 1, amount, buffered, r, pbl, last =>
    let to_read := min pbl (amount - buffered.length)
    if 0 < to_read then
      match Leaf.read r to_read with
      | .err e r' => .done buffered r' pbl last (some e)
      | .abort => .abort
      | .ok bytes r' =>
        if bytes.length < to_read then
          .done (buffered ++ bytes) r' (pbl - bytes.length) last none
        else
          fillLoop fuel amount (buffered ++ bytes) r' (pbl - bytes.length) last
    else
      if buffered.length = amount ∨ last then .done buffered r pbl last none
      else if pbl ≠ 0 then .abort
      else
        match body_length_new_format r with
        | .ok (.Full len) r' => fillLoop fuel amount buffered r' len true
        | .ok (.Partial len) r' => fillLoop fuel amount buffered r' len false
        | .ok .Indeterminate _ => .abort
        | .err e r' => .done buffered r' pbl last (some e)
        | .abort => .abort

/-- The loop iterations are bounded: every pass either gathers at least one
byte or consumes at least one header byte from the inner reader, so this
fuel is never exhausted (`fillLoop_fuel_enough` below). -/
def fillFuel (amount : Nat) (r : Leaf) : Nat :=
  2 * amount + r.rem.length + 1

namespace BufferedReaderPartialBodyFilter

/-- Result of `do_fill_buffer`: the mutated filter, possibly paired with the
error to propagate. -/
inductive FBRes : Type where
  | ok (s : BufferedReaderPartialBodyFilter)
  | err (e : IoErr) (s : BufferedReaderPartialBodyFilter)
  | abort
  deriving Repr, DecidableEq

/-- `do_fill_buffer` (partial_body.rs:49-152): carry over the unread part of
any existing side buffer (asserting the request exceeds it), run the
buffering loop, then install the gathered bytes as the new side buffer with
the cursor reset; an error from the loop is returned only after the buffer
is installed. -/
def do_fill_buffer (s : BufferedReaderPartialBodyFilter) (amount : Nat) : FBRes :=
  let buffered0 := match s.buffer with
    | some old => old.drop s.cursor
    | none => []
  if s.buffer.isSome ∧ amount ≤ buffered0.length then .abort
  else
    match fillLoop (fillFuel amount s.reader) amount buffered0 s.reader
        s.partial_body_length s.last with
    | .done g r' pbl' last' e =>
      let s' : BufferedReaderPartialBodyFilter := ⟨r', pbl', last', some g, 0⟩
      match e with
      | some er => .err er s'
      | none => .ok s'
    | .abort => .abort

/-- The tail of `data_helper` (partial_body.rs:234-244): serve the request
from the side buffer (which must exist — `unwrap`), failing hard on a
shortfall, and advancing the cursor when consuming. -/
def serve (s : BufferedReaderPartialBodyFilter) (amount : Nat)
    (hard and_consume : Bool) : OpRes BufferedReaderPartialBodyFilter :=
  match s.buffer with
  | none => .abort
  | some b =>
    let buffer := b.drop s.cursor
    if hard ∧ buffer.length < amount then .err .eof s
    else if and_consume then
      .ok buffer ⟨s.reader, s.partial_body_length, s.last, some b,
        s.cursor + min amount buffer.length⟩
    else .ok buffer s

/-- `data_helper` (partial_body.rs:154-245). -/
def data_helper (s : BufferedReaderPartialBodyFilter) (amount : Nat)
    (hard and_consume : Bool) : OpRes BufferedReaderPartialBodyFilter :=
  match s.buffer with
  | some b =>
    if amount > b.length - s.cursor then
      match do_fill_buffer s amount with
      | .ok s' => serve s' amount hard and_consume
      | .err e s' => .err e s'
      | .abort => .abort
    else serve s amount hard and_consume
  | none =>
    if amount ≤ s.partial_body_length ∨ s.last then
      match
        (if hard && and_consume then Leaf.data_consume_hard s.reader amount
         else if and_consume then Leaf.data_consume s.reader amount
         else Leaf.data s.reader amount) with
      | .ok buffer r' =>
        let amount_buffered := min buffer.length s.partial_body_length
        if hard ∧ amount_buffered < amount then
          .err .eof ⟨r', s.partial_body_length, s.last, none, s.cursor⟩
        else
          let pbl' := if and_consume then
              s.partial_body_length - min amount amount_buffered
            else s.partial_body_length
          .ok (buffer.take amount_buffered) ⟨r', pbl', s.last, none, s.cursor⟩
      | .err e r' => .err e ⟨r', s.partial_body_length, s.last, none, s.cursor⟩
      | .abort => .abort
    else
      match do_fill_buffer s amount with
      | .ok s' => serve s' amount hard and_consume
      | .err e s' => .err e s'
      | .abort => .abort

/-- `data` (partial_body.rs:262-264). -/
def data (s : BufferedReaderPartialBodyFilter) (amount : Nat) :
    OpRes BufferedReaderPartialBodyFilter :=
  data_helper s amount false false

/-- `data_hard` (partial_body.rs:266-268). -/
def data_hard (s : BufferedReaderPartialBodyFilter) (amount : Nat) :
    OpRes BufferedReaderPartialBodyFilter :=
  data_helper s amount true false

/-- `consume` (partial_body.rs:270-286): with a side buffer, advance the
cursor (asserting it stays within the buffer); without one, assert the
amount fits in the current chunk, decrement the counter, and delegate. -/
def consume (s : BufferedReaderPartialBodyFilter) (amount : Nat) :
    CRes BufferedReaderPartialBodyFilter :=
  match s.buffer with
  | some b =>
    if s.cursor + amount ≤ b.length then
      .ok (b.drop s.cursor) ⟨s.reader, s.partial_body_length, s.last, some b,
        s.cursor + amount⟩
    else .abort
  | none =>
    if amount ≤ s.partial_body_length then
      match Leaf.consume s.reader amount with
      | .ok v r' => .ok v ⟨r', s.partial_body_length - amount, s.last, none, s.cursor⟩
      | .abort => .abort
    else .abort

/-- `data_consume` (partial_body.rs:288-290). -/
def data_consume (s : BufferedReaderPartialBodyFilter) (amount : Nat) :
    OpRes BufferedReaderPartialBodyFilter :=
  data_helper s amount false true

/-- `data_consume_hard` (partial_body.rs:292-294). -/
def data_consume_hard (s : BufferedReaderPartialBodyFilter) (amount : Nat) :
    OpRes BufferedReaderPartialBodyFilter :=
  data_helper s amount true true

/-- `io::Read` for the filter (partial_body.rs:249-253): the generic
derivation from `data`/`consume`. -/
def read (s : BufferedReaderPartialBodyFilter) (n : Nat) :
    OpRes BufferedReaderPartialBodyFilter :=
  generic_read data consume s n

end BufferedReaderPartialBodyFilter

/-- The partial-body filter's capability set. -/
def pbfImpl : Impl BufferedReaderPartialBodyFilter :=
  ⟨BufferedReaderPartialBodyFilter.data, BufferedReaderPartialBodyFilter.data_hard,
   BufferedReaderPartialBodyFilter.consume, BufferedReaderPartialBodyFilter.data_consume,
   BufferedReaderPartialBodyFilter.data_consume_hard, BufferedReaderPartialBodyFilter.read⟩

/-- The logical byte stream of a raw inner stream under the new-format
chunking: the remainder of the current chunk, then — unless this is the last
chunk — the stream introduced by the next length header; parsing stops at a
malformed or missing header. -/
def chunkStreamF : Nat → Nat → Bool → List Nat → List Nat
  | 0, _, _, _ => []
  | fuel + 1, pbl, last, raw =>
    if last then raw.take pbl
    else
      raw.take pbl ++
        (match parseBL (raw.drop pbl) with
         | some (.Full len, rest) => chunkStreamF fuel len true rest
         | some (.Partial len, rest) => chunkStreamF fuel len false rest
         | some (.Indeterminate, _) => []
         | none => [])

def chunkStream (pbl : Nat) (last : Bool) (raw : List Nat) : List Nat :=
  chunkStreamF (raw.length + 1) pbl last raw

/-- The bytes a partial-body filter will deliver from its current state:
the unread part of the side buffer, then the de-chunked inner stream. -/
def pbfStream (s : BufferedReaderPartialBodyFilter) : List Nat :=
  (match s.buffer with
   | some b => b.drop s.cursor
   | none => []) ++
    chunkStream s.partial_body_length s.last s.reader.rem

/-- The bytes a limitor over a leaf will deliver: the leaf's content clipped
to the budget. -/
def limitorStream (s : BufferedReaderLimitor Leaf) : List Nat :=
  s.reader.rem.take s.limit

/-- Cursor well-formedness of a filter state: the side-buffer cursor does not
point past the buffer's end. -/
def cursorWF (s : BufferedReaderPartialBodyFilter) : Prop :=
  ∀ b, s.buffer = some b → s.cursor ≤ b.length

/-- C2: over the sequence `read(5); read(5)` the limitor with budget 5
delivers all 10 bytes of the inner stream: its `io::Read` path clips each
single request to the budget but never decrements it, so the total delivered
exceeds the limit `L`.  This exhibits the failing input for the claim that
the total delivered over any operation sequence is at most `L`. -/
theorem C2_limitor_read_exceeds_limit :
    delivered [Op.readOp 5, Op.readOp 5]
      (runTr (limitorImpl leafImpl)
        ⟨⟨[0, 1, 2, 3, 4, 5, 6, 7, 8, 9], false⟩, 5⟩
        [Op.readOp 5, Op.readOp 5]).1 = [0, 1, 2, 3, 4, 5, 6, 7, 8, 9] ∧
    (runTr (limitorImpl leafImpl)
        ⟨⟨[0, 1, 2, 3, 4, 5, 6, 7, 8, 9], false⟩, 5⟩
        [Op.readOp 5, Op.readOp 5]).2.limit = 5 := by
  exact ⟨rfl, rfl⟩

/-- C5: the limitor's `read` is not the generic derivation from
`data`/`consume`: both return the same bytes, but the derivation decrements
the budget while the shipped `read` leaves it unchanged, so a capability
operation issued after a `read` delivers bytes beyond what the derived
reader would (here `[3,4,5,6,7]` instead of `[3,4]`).  The partial-body
filter's `read` is exactly the generic derivation. -/
theorem C5_limitor_read_not_generic_derivation :
    BufferedReaderLimitor.read leafImpl ⟨⟨[0, 1, 2, 3, 4, 5, 6, 7, 8, 9], false⟩, 5⟩ 3 =
      .ok [0, 1, 2] ⟨⟨[3, 4, 5, 6, 7, 8, 9], false⟩, 5⟩ ∧
    generic_read (BufferedReaderLimitor.data leafImpl)
        (BufferedReaderLimitor.consume leafImpl)
        ⟨⟨[0, 1, 2, 3, 4, 5, 6, 7, 8, 9], false⟩, 5⟩ 3 =
      .ok [0, 1, 2] ⟨⟨[3, 4, 5, 6, 7, 8, 9], false⟩, 2⟩ ∧
    BufferedReaderLimitor.data leafImpl ⟨⟨[3, 4, 5, 6, 7, 8, 9], false⟩, 5⟩ 5 =
      .ok [3, 4, 5, 6, 7] ⟨⟨[3, 4, 5, 6, 7, 8, 9], false⟩, 5⟩ ∧
    BufferedReaderLimitor.data leafImpl ⟨⟨[3, 4, 5, 6, 7, 8, 9], false⟩, 2⟩ 5 =
      .ok [3, 4] ⟨⟨[3, 4, 5, 6, 7, 8, 9], false⟩, 2⟩ ∧
    (∀ s n, BufferedReaderPartialBodyFilter.read s n =
      generic_read BufferedReaderPartialBodyFilter.data
        BufferedReaderPartialBodyFilter.consume s n) := by
  exact ⟨rfl, rfl, rfl, rfl, fun s n => rfl⟩

/-- C8: for a limitor over any inner reader, when `a ≤ limit` and the inner
`consume` returns view `d`, `consume a` decrements the budget by exactly `a`
and returns `d` clamped to `(limit - a) + a = limit` — a view of length
`min (length d) limit`, no stricter. -/
theorem C8_limitor_consume_clamp {σ : Type} (I : Impl σ)
    (s : BufferedReaderLimitor σ) (a : Nat) (h : a ≤ s.limit)
    (d : List Nat) (r' : σ) (hc : I.consume s.reader a = .ok d r') :
    BufferedReaderLimitor.consume I s a =
      .ok (d.take (min s.limit d.length)) ⟨r', s.limit - a⟩ ∧
    (d.take (min s.limit d.length)).length = min d.length s.limit := by
  have he : s.limit - a + a = s.limit := by omega
  constructor
  · simp only [BufferedReaderLimitor.consume, if_pos h, hc, he]
  · simp [Nat.min_comm]

/-- Witness for C8 at a concrete input: budget 3 over a four-byte leaf,
consuming 2. -/
theorem C8_limitor_consume_clamp_witness :
    BufferedReaderLimitor.consume leafImpl ⟨⟨[9, 8, 7, 6], false⟩, 3⟩ 2 =
      .ok [9, 8, 7] ⟨⟨[7, 6], false⟩, 1⟩ ∧
    ([9, 8, 7] : List Nat).length = min 4 3 := by
  have h := C8_limitor_consume_clamp leafImpl ⟨⟨[9, 8, 7, 6], false⟩, 3⟩ 2
    (by decide) [9, 8, 7, 6] ⟨[7, 6], false⟩ (by decide)
  exact ⟨by simpa using h.1, by decide⟩

/-- C7: when no side buffer exists and the request fits in the current chunk
(`a ≤ counter`), `data_consume a` delegates directly to the inner reader,
truncates the returned view to `min (returned length) counter`, and leaves
the side-buffer field absent — no buffer is allocated, also on the error
path. -/
theorem C7_pbf_fast_path (s : BufferedReaderPartialBodyFilter) (a : Nat)
    (hb : s.buffer = none) (ha : a ≤ s.partial_body_length) :
    (∀ buf r', Leaf.data_consume s.reader a = .ok buf r' →
      BufferedReaderPartialBodyFilter.data_consume s a =
        .ok (buf.take (min buf.length s.partial_body_length))
          ⟨r', s.partial_body_length - min a (min buf.length s.partial_body_length),
            s.last, none, s.cursor⟩) ∧
    (∀ e r', Leaf.data_consume s.reader a = .err e r' →
      BufferedReaderPartialBodyFilter.data_consume s a =
        .err e ⟨r', s.partial_body_length, s.last, none, s.cursor⟩) := by
  constructor
  · intro buf r' hinner
    simp only [BufferedReaderPartialBodyFilter.data_consume,
      BufferedReaderPartialBodyFilter.data_helper, hb, if_pos (Or.inl ha),
      Bool.false_and, Bool.and_false, if_true, hinner]
    simp
  · intro e r' hinner
    simp only [BufferedReaderPartialBodyFilter.data_consume,
      BufferedReaderPartialBodyFilter.data_helper, hb, if_pos (Or.inl ha),
      Bool.false_and, Bool.and_false, if_true, hinner]
    simp

/-- Witness for C7 at a concrete input: counter 3, request 2, five bytes in
the inner reader. -/
theorem C7_pbf_fast_path_witness :
    BufferedReaderPartialBodyFilter.data_consume
      ⟨⟨[1, 2, 3, 4, 5], false⟩, 3, false, none, 0⟩ 2 =
      .ok [1, 2, 3] ⟨⟨[3, 4, 5], false⟩, 1, false, none, 0⟩ := by
  have h := (C7_pbf_fast_path ⟨⟨[1, 2, 3, 4, 5], false⟩, 3, false, none, 0⟩ 2
    rfl (by decide)).1 [1, 2, 3, 4, 5] ⟨[3, 4, 5], false⟩ (by decide)
  simpa using h

def OpRes.map {σ τ : Type} (f : σ → τ) : OpRes σ → OpRes τ
  | .ok v s => .ok v (f s)
  | .err e s => .err e (f s)
  | .abort => .abort

def CRes.map {σ τ : Type} (f : σ → τ) : CRes σ → CRes τ
  | .ok v s => .ok v (f s)
  | .abort => .abort

/-- Collapse a stack of two limitors to one with the tighter budget. -/
def flattenLim {σ : Type} (s : BufferedReaderLimitor (BufferedReaderLimitor σ)) :
    BufferedReaderLimitor σ :=
  ⟨s.reader.reader, min s.reader.limit s.limit⟩

theorem lim_data_norm {σ : Type} (I : Impl σ) (s : BufferedReaderLimitor σ) (a : Nat) :
    BufferedReaderLimitor.data I s a =
      match I.data s.reader (min a s.limit) with
      | .ok buf r' => .ok (buf.take s.limit) ⟨r', s.limit⟩
      | .err e r' => .err e ⟨r', s.limit⟩
      | .abort => .abort := by
  cases hI : I.data s.reader (min a s.limit) with
  | ok buf r' =>
    by_cases h : buf.length > s.limit
    · simp [BufferedReaderLimitor.data, hI, h]
    · simp [BufferedReaderLimitor.data, hI, h,
        List.take_of_length_le (by omega : buf.length ≤ s.limit)]
  | err e r' => simp [BufferedReaderLimitor.data, hI]
  | abort => simp [BufferedReaderLimitor.data, hI]

theorem lim2_data {σ : Type} (I : Impl σ)
    (st : BufferedReaderLimitor (BufferedReaderLimitor σ)) (a : Nat) :
    (BufferedReaderLimitor.data (limitorImpl I) st a).map flattenLim =
      BufferedReaderLimitor.data I (flattenLim st) a := by
  obtain ⟨⟨s, L1⟩, L2⟩ := st
  have ha : min (min a L2) L1 = min a (min L1 L2) := by omega
  cases hI : I.data s (min a (min L1 L2)) with
  | ok buf r' =>
    have hI' : I.data s (min (min a L2) L1) = .ok buf r' := by rw [ha]; exact hI
    have hmid : BufferedReaderLimitor.data I ⟨s, L1⟩ (min a L2) =
        .ok (buf.take L1) ⟨r', L1⟩ := by
      rw [lim_data_norm]; simp only [hI']
    have houter : BufferedReaderLimitor.data (limitorImpl I) ⟨⟨s, L1⟩, L2⟩ a =
        .ok ((buf.take L1).take L2) ⟨⟨r', L1⟩, L2⟩ := by
      rw [lim_data_norm]
      simp only [limitorImpl, hmid]
    rw [houter, lim_data_norm]
    show OpRes.ok ((buf.take L1).take L2) (flattenLim ⟨⟨r', L1⟩, L2⟩) = _
    simp only [hI, flattenLim]
    congr 1
    rw [List.take_take, List.take_eq_take]
    omega
  | err e r' =>
    have hI' : I.data s (min (min a L2) L1) = .err e r' := by rw [ha]; exact hI
    have hmid : BufferedReaderLimitor.data I ⟨s, L1⟩ (min a L2) =
        .err e ⟨r', L1⟩ := by
      rw [lim_data_norm]; simp only [hI']
    have houter : BufferedReaderLimitor.data (limitorImpl I) ⟨⟨s, L1⟩, L2⟩ a =
        .err e ⟨⟨r', L1⟩, L2⟩ := by
      rw [lim_data_norm]
      simp only [limitorImpl, hmid]
    rw [houter, lim_data_norm]
    simp [flattenLim, hI, OpRes.map]
  | abort =>
    have hI' : I.data s (min (min a L2) L1) = .abort := by rw [ha]; exact hI
    have hmid : BufferedReaderLimitor.data I ⟨s, L1⟩ (min a L2) = .abort := by
      rw [lim_data_norm]; simp only [hI']
    have houter : BufferedReaderLimitor.data (limitorImpl I) ⟨⟨s, L1⟩, L2⟩ a =
        .abort := by
      rw [lim_data_norm]
      simp only [limitorImpl, hmid]
    rw [houter, lim_data_norm]
    simp [flattenLim, hI, OpRes.map]

theorem lim2_data_hard {σ : Type} (I : Impl σ)
    (st : BufferedReaderLimitor (BufferedReaderLimitor σ)) (a : Nat) :
    (BufferedReaderLimitor.data_hard (limitorImpl I) st a).map flattenLim =
      BufferedReaderLimitor.data_hard I (flattenLim st) a := by
  have h := lim2_data I st a
  unfold BufferedReaderLimitor.data_hard
  cases hS : BufferedReaderLimitor.data (limitorImpl I) st a with
  | ok v s' =>
    rw [hS] at h
    rw [← h]
    by_cases hl : v.length < a <;> simp [OpRes.map, hl]
  | err e s' =>
    rw [hS] at h
    rw [← h]
    simp [OpRes.map]
  | abort =>
    rw [hS] at h
    rw [← h]
    simp [OpRes.map]

theorem lim2_consume {σ : Type} (I : Impl σ)
    (st : BufferedReaderLimitor (BufferedReaderLimitor σ)) (a : Nat) :
    (BufferedReaderLimitor.consume (limitorImpl I) st a).map flattenLim =
      BufferedReaderLimitor.consume I (flattenLim st) a := by
  obtain ⟨⟨s, L1⟩, L2⟩ := st
  by_cases h2 : a ≤ L2
  · by_cases h1 : a ≤ L1
    · have hmin : a ≤ min L1 L2 := by omega
      cases hI : I.consume s a with
      | ok d r' =>
        simp [BufferedReaderLimitor.consume, limitorImpl, h1, h2, hmin, hI,
          CRes.map, flattenLim, List.take_take]
        constructor
        · omega
        · omega
      | abort =>
        simp [BufferedReaderLimitor.consume, limitorImpl, h1, h2, hmin, hI,
          CRes.map, flattenLim]
    · have hmin : ¬ a ≤ min L1 L2 := by omega
      simp [BufferedReaderLimitor.consume, limitorImpl, h1, h2, hmin, CRes.map,
        flattenLim]
  · have hmin : ¬ a ≤ min L1 L2 := by omega
    simp [BufferedReaderLimitor.consume, limitorImpl, h2, hmin, CRes.map,
      flattenLim]

theorem lim2_data_consume {σ : Type} (I : Impl σ)
    (st : BufferedReaderLimitor (BufferedReaderLimitor σ)) (a : Nat) :
    (BufferedReaderLimitor.data_consume (limitorImpl I) st a).map flattenLim =
      BufferedReaderLimitor.data_consume I (flattenLim st) a := by
  obtain ⟨⟨s, L1⟩, L2⟩ := st
  have ha : min (min a L2) L1 = min a (min L1 L2) := by omega
  cases hI : I.dataConsume s (min a (min L1 L2)) with
  | ok buf r' =>
    have hI' : I.dataConsume s (min a (min L2 L1)) = .ok buf r' := by
      rw [show min a (min L2 L1) = min a (min L1 L2) by omega]; exact hI
    simp [BufferedReaderLimitor.data_consume, limitorImpl, hI, hI',
      OpRes.map, flattenLim, List.take_take]
    first
    | omega
    | (constructor
       · first
         | omega
         | (rw [List.take_eq_take]; omega)
       · omega)
  | err e r' =>
    have hI' : I.dataConsume s (min a (min L2 L1)) = .err e r' := by
      rw [show min a (min L2 L1) = min a (min L1 L2) by omega]; exact hI
    simp [BufferedReaderLimitor.data_consume, limitorImpl, hI, hI', OpRes.map,
      flattenLim]
  | abort =>
    have hI' : I.dataConsume s (min a (min L2 L1)) = .abort := by
      rw [show min a (min L2 L1) = min a (min L1 L2) by omega]; exact hI
    simp [BufferedReaderLimitor.data_consume, limitorImpl, hI, hI', OpRes.map,
      flattenLim]

theorem lim2_data_consume_hard {σ : Type} (I : Impl σ)
    (st : BufferedReaderLimitor (BufferedReaderLimitor σ)) (a : Nat) :
    (BufferedReaderLimitor.data_consume_hard (limitorImpl I) st a).map flattenLim =
      BufferedReaderLimitor.data_consume_hard I (flattenLim st) a := by
  obtain ⟨⟨s, L1⟩, L2⟩ := st
  by_cases h2 : a > L2
  · have hmin : a > min L1 L2 := by omega
    simp [BufferedReaderLimitor.data_consume_hard, limitorImpl, h2, hmin,
      OpRes.map, flattenLim]
  · by_cases h1 : a > L1
    · have hmin : a > min L1 L2 := by omega
      simp [BufferedReaderLimitor.data_consume_hard, limitorImpl, h1, h2, hmin,
        OpRes.map, flattenLim]
    · have hmin : ¬ a > min L1 L2 := by omega
      cases hI : I.dataConsumeHard s a with
      | ok buf r' =>
        simp [BufferedReaderLimitor.data_consume_hard, limitorImpl, h1, h2, hmin,
          hI, OpRes.map, flattenLim, List.take_take]
        constructor
        · first
          | omega
          | (rw [List.take_eq_take]; omega)
        · omega
      | err e r' =>
        simp [BufferedReaderLimitor.data_consume_hard, limitorImpl, h1, h2, hmin,
          hI, OpRes.map, flattenLim]
      | abort =>
        simp [BufferedReaderLimitor.data_consume_hard, limitorImpl, h1, h2, hmin,
          hI, OpRes.map, flattenLim]

theorem lim2_read {σ : Type} (I : Impl σ)
    (st : BufferedReaderLimitor (BufferedReaderLimitor σ)) (n : Nat) :
    (BufferedReaderLimitor.read (limitorImpl I) st n).map flattenLim =
      BufferedReaderLimitor.read I (flattenLim st) n := by
  obtain ⟨⟨s, L1⟩, L2⟩ := st
  have ha : min L1 (min L2 n) = min (min L1 L2) n := by omega
  cases hI : I.read s (min (min L1 L2) n) with
  | ok bytes r' =>
    have hI' : I.read s (min L1 (min L2 n)) = .ok bytes r' := by rw [ha]; exact hI
    simp [BufferedReaderLimitor.read, limitorImpl, hI, hI', OpRes.map, flattenLim]
  | err e r' =>
    have hI' : I.read s (min L1 (min L2 n)) = .err e r' := by rw [ha]; exact hI
    simp [BufferedReaderLimitor.read, limitorImpl, hI, hI', OpRes.map, flattenLim]
  | abort =>
    have hI' : I.read s (min L1 (min L2 n)) = .abort := by rw [ha]; exact hI
    simp [BufferedReaderLimitor.read, limitorImpl, hI, hI', OpRes.map, flattenLim]

theorem limitorImpl_consume {σ : Type} (I : Impl σ) :
    (limitorImpl I).consume = BufferedReaderLimitor.consume I := rfl

theorem lim2_runOp {σ : Type} (I : Impl σ)
    (st : BufferedReaderLimitor (BufferedReaderLimitor σ)) (op : Op) :
    (runOp (limitorImpl (limitorImpl I)) st op).map flattenLim =
      runOp (limitorImpl I) (flattenLim st) op := by
  cases op with
  | data a => exact lim2_data I st a
  | dataHard a => exact lim2_data_hard I st a
  | consume a =>
    have h := lim2_consume I st a
    simp only [runOp, limitorImpl_consume]
    cases hS : BufferedReaderLimitor.consume (limitorImpl I) st a with
    | ok v s' =>
      rw [hS] at h
      rw [← h]
      simp [CRes.map, OpRes.map]
    | abort =>
      rw [hS] at h
      rw [← h]
      simp [CRes.map, OpRes.map]
  | dataConsume a => exact lim2_data_consume I st a
  | dataConsumeHard a => exact lim2_data_consume_hard I st a
  | readOp n => exact lim2_read I st n

/-- C3: a stack of two limitors produces, over any operation sequence,
exactly the same observations (views, errors, aborts) as a single limitor
with the minimum of the two budgets; in particular it delivers the same
byte prefix.  The inner reader is arbitrary. -/
theorem C3_stacked_limitors_equiv {σ : Type} (I : Impl σ) (s : σ) (L1 L2 : Nat)
    (ops : List Op) :
    (runTr (limitorImpl (limitorImpl I)) ⟨⟨s, L1⟩, L2⟩ ops).1 =
      (runTr (limitorImpl I) ⟨s, min L1 L2⟩ ops).1 := by
  have main : ∀ (ops : List Op) (st : BufferedReaderLimitor (BufferedReaderLimitor σ)),
      (runTr (limitorImpl (limitorImpl I)) st ops).1 =
        (runTr (limitorImpl I) (flattenLim st) ops).1 := by
    intro ops
    induction ops with
    | nil => intro st; rfl
    | cons op rest ih =>
      intro st
      have h := lim2_runOp I st op
      cases hS : runOp (limitorImpl (limitorImpl I)) st op with
      | ok v s' =>
        rw [hS] at h
        unfold runTr
        rw [hS, ← h]
        show (Obs.okv v :: _, _).1 = (Obs.okv v :: _, _).1
        simp [ih s']
      | err e s' =>
        rw [hS] at h
        unfold runTr
        rw [hS, ← h]
        simp [OpRes.map]
      | abort =>
        rw [hS] at h
        unfold runTr
        rw [hS, ← h]
        simp [OpRes.map]
  exact main ops ⟨⟨s, L1⟩, L2⟩

namespace BufferedReaderPartialBodyFilter

theorem do_fill_buffer_installs (s : BufferedReaderPartialBodyFilter) (amount : Nat) :
    (∀ s', do_fill_buffer s amount = .ok s' →
      ∃ g, s'.buffer = some g ∧ s'.cursor = 0) ∧
    (∀ e s', do_fill_buffer s amount = .err e s' →
      ∃ g, s'.buffer = some g ∧ s'.cursor = 0) := by
  constructor
  · intro s' h
    simp only [do_fill_buffer] at h
    split at h
    · cases h
    · split at h
      · split at h
        · cases h
        · cases h
          exact ⟨_, rfl, rfl⟩
      · cases h
  · intro e s' h
    simp only [do_fill_buffer] at h
    split at h
    · cases h
    · split at h
      · split at h
        · cases h
          exact ⟨_, rfl, rfl⟩
        · cases h
      · cases h

theorem serve_buffer {s : BufferedReaderPartialBodyFilter} {b : List Nat}
    (hb : s.buffer = some b) (amount : Nat) (hard and_consume : Bool) :
    (∀ v s', serve s amount hard and_consume = .ok v s' → s'.buffer = some b) ∧
    (∀ e s', serve s amount hard and_consume = .err e s' → s'.buffer = some b) := by
  constructor
  · intro v s' h
    simp only [serve, hb] at h
    split at h
    · cases h
    · split at h
      · cases h
        rfl
      · cases h
        exact hb
  · intro e s' h
    simp only [serve, hb] at h
    split at h
    · cases h
      exact hb
    · split at h <;> cases h

theorem data_helper_buffer_persists {s : BufferedReaderPartialBodyFilter}
    {b : List Nat} (hb : s.buffer = some b) (amount : Nat) (hard and_consume : Bool) :
    (∀ v s', data_helper s amount hard and_consume = .ok v s' → s'.buffer.isSome) ∧
    (∀ e s', data_helper s amount hard and_consume = .err e s' → s'.buffer.isSome) := by
  constructor
  · intro v s' h
    simp only [data_helper, hb] at h
    split at h
    · cases hF : do_fill_buffer s amount with
      | ok s2 =>
        rw [hF] at h
        obtain ⟨g, hg, -⟩ := (do_fill_buffer_installs s amount).1 s2 hF
        have := (serve_buffer hg amount hard and_consume).1 v s' h
        simp [this]
      | err e s2 =>
        rw [hF] at h
        cases h
      | abort =>
        rw [hF] at h
        cases h
    · have := (serve_buffer hb amount hard and_consume).1 v s' h
      simp [this]
  · intro e s' h
    simp only [data_helper, hb] at h
    split at h
    · cases hF : do_fill_buffer s amount with
      | ok s2 =>
        rw [hF] at h
        obtain ⟨g, hg, -⟩ := (do_fill_buffer_installs s amount).1 s2 hF
        have := (serve_buffer hg amount hard and_consume).2 e s' h
        simp [this]
      | err e2 s2 =>
        rw [hF] at h
        cases h
        obtain ⟨g, hg, -⟩ := (do_fill_buffer_installs s amount).2 e s' hF
        simp [hg]
      | abort =>
        rw [hF] at h
        cases h
    · have := (serve_buffer hb amount hard and_consume).2 e s' h
      simp [this]

theorem pbf_op_buffer_persists (s : BufferedReaderPartialBodyFilter) (op : Op)
    (hs : s.buffer.isSome) :
    (∀ v s', runOp pbfImpl s op = .ok v s' → s'.buffer.isSome) ∧
    (∀ e s', runOp pbfImpl s op = .err e s' → s'.buffer.isSome) := by
  obtain ⟨b, hb⟩ := Option.isSome_iff_exists.mp hs
  have hcons : ∀ a v s', consume s a = .ok v s' → s'.buffer.isSome := by
    intro a v s' h
    simp only [consume, hb] at h
    split at h
    · cases h
      simp
    · cases h
  cases op with
  | data a => exact data_helper_buffer_persists hb a false false
  | dataHard a => exact data_helper_buffer_persists hb a true false
  | dataConsume a => exact data_helper_buffer_persists hb a false true
  | dataConsumeHard a => exact data_helper_buffer_persists hb a true true
  | consume a =>
    constructor
    · intro v s' h
      simp only [runOp, pbfImpl] at h
      cases hC : consume s a with
      | ok w s2 =>
        simp only [hC] at h
        cases h
        exact hcons _ _ _ hC
      | abort =>
        simp only [hC] at h
        cases h
    · intro e s' h
      simp only [runOp, pbfImpl] at h
      cases hC : consume s a with
      | ok w s2 =>
        simp only [hC] at h
        cases h
      | abort =>
        simp only [hC] at h
        cases h
  | readOp n =>
    constructor
    · intro v s' h
      simp only [runOp, pbfImpl, read, generic_read] at h
      cases hD : data s n with
      | ok w s2 =>
        simp only [hD] at h
        have hs2 : s2.buffer.isSome := (data_helper_buffer_persists hb n false false).1 w s2 hD
        obtain ⟨b2, hb2⟩ := Option.isSome_iff_exists.mp hs2
        cases hC : consume s2 (min n w.length) with
        | ok w2 s3 =>
          simp only [hC] at h
          cases h
          simp only [consume, hb2] at hC
          split at hC
          · cases hC
            simp
          · cases hC
        | abort =>
          simp only [hC] at h
          cases h
      | err e s2 =>
        simp only [hD] at h
        cases h
      | abort =>
        simp only [hD] at h
        cases h
    · intro e s' h
      simp only [runOp, pbfImpl, read, generic_read] at h
      cases hD : data s n with
      | ok w s2 =>
        simp only [hD] at h
        cases hC : consume s2 (min n w.length) with
        | ok w2 s3 =>
          simp only [hC] at h
          cases h
        | abort =>
          simp only [hC] at h
          cases h
      | err e2 s2 =>
        simp only [hD] at h
        cases h
        exact (data_helper_buffer_persists hb n false false).2 e s' hD
      | abort =>
        simp only [hD] at h
        cases h

end BufferedReaderPartialBodyFilter

theorem pbf_trace_buffer_persists :
    ∀ (ops : List Op) (s : BufferedReaderPartialBodyFilter),
      s.buffer.isSome → ((runTr pbfImpl s ops).2).buffer.isSome := by
  intro ops
  induction ops with
  | nil => intro s h; exact h
  | cons op rest ih =>
    intro s h
    cases hR : runOp pbfImpl s op with
    | ok v s' =>
      have hnext := ih s'
        ((BufferedReaderPartialBodyFilter.pbf_op_buffer_persists s op h).1 v s' hR)
      simp only [runTr, hR]
      exact hnext
    | err e s' =>
      have := (BufferedReaderPartialBodyFilter.pbf_op_buffer_persists s op h).2 e s' hR
      simp only [runTr, hR]
      exact this
    | abort =>
      simp only [runTr, hR]
      exact h

/-- C10: once a side buffer is installed it is never uninstalled: over any
further operation sequence the side-buffer field stays present (also when an
operation stops the run with an I/O error); `consume` with a buffer only
advances the cursor, keeping the field even when the cursor reaches the
buffer's end; and any request exceeding the buffered remainder is served
through `do_fill_buffer` — a freshly allocated side buffer — never by the
direct-delegation fast path. -/
theorem C10_side_buffer_persists :
    (∀ (s : BufferedReaderPartialBodyFilter) (ops : List Op),
      s.buffer.isSome → ((runTr pbfImpl s ops).2).buffer.isSome) ∧
    (∀ (s : BufferedReaderPartialBodyFilter) (b : List Nat) (a : Nat),
      s.buffer = some b → s.cursor + a ≤ b.length →
      BufferedReaderPartialBodyFilter.consume s a =
        .ok (b.drop s.cursor)
          ⟨s.reader, s.partial_body_length, s.last, some b, s.cursor + a⟩) ∧
    (∀ (s : BufferedReaderPartialBodyFilter) (b : List Nat) (a : Nat)
      (s' : BufferedReaderPartialBodyFilter),
      s.buffer = some b → b.length - s.cursor < a →
      (BufferedReaderPartialBodyFilter.do_fill_buffer s a = .ok s' →
        BufferedReaderPartialBodyFilter.data_consume s a =
          BufferedReaderPartialBodyFilter.serve s' a false true) ∧
      (∀ e, BufferedReaderPartialBodyFilter.do_fill_buffer s a = .err e s' →
        BufferedReaderPartialBodyFilter.data_consume s a = .err e s')) := by
  refine ⟨fun s ops h => pbf_trace_buffer_persists ops s h, ?_, ?_⟩
  · intro s b a hb hfit
    simp only [BufferedReaderPartialBodyFilter.consume, hb, if_pos hfit]
  · intro s b a s' hb hover
    constructor
    · intro hF
      simp only [BufferedReaderPartialBodyFilter.data_consume,
        BufferedReaderPartialBodyFilter.data_helper, hb, if_pos hover, hF]
    · intro e hF
      simp only [BufferedReaderPartialBodyFilter.data_consume,
        BufferedReaderPartialBodyFilter.data_helper, hb, if_pos hover, hF]

/-- Witness for C10 at concrete inputs: a filter with buffer `[7,8]`; the
trace keeps the buffer across a consume; consuming to the buffer's very end
keeps the field; and with the buffer exhausted a 2-byte request inside a
2-byte chunk still goes through `do_fill_buffer`. -/
theorem C10_side_buffer_persists_witness :
    ((runTr pbfImpl ⟨⟨[], false⟩, 0, true, some [7, 8], 1⟩ [Op.consume 1]).2).buffer.isSome ∧
    BufferedReaderPartialBodyFilter.consume ⟨⟨[], false⟩, 0, true, some [7, 8], 1⟩ 1 =
      .ok [8] ⟨⟨[], false⟩, 0, true, some [7, 8], 2⟩ ∧
    BufferedReaderPartialBodyFilter.data_consume ⟨⟨[5, 6], false⟩, 2, false, some [7, 8], 2⟩ 2 =
      BufferedReaderPartialBodyFilter.serve ⟨⟨[], false⟩, 0, false, some [5, 6], 0⟩ 2 false true := by
  refine ⟨?_, ?_, ?_⟩
  · exact C10_side_buffer_persists.1 ⟨⟨[], false⟩, 0, true, some [7, 8], 1⟩
      [Op.consume 1] (by decide)
  · have h := C10_side_buffer_persists.2.1 ⟨⟨[], false⟩, 0, true, some [7, 8], 1⟩
      [7, 8] 1 rfl (by decide)
    simpa using h
  · exact (C10_side_buffer_persists.2.2 ⟨⟨[5, 6], false⟩, 2, false, some [7, 8], 2⟩
      [7, 8] 2 ⟨⟨[], false⟩, 0, false, some [5, 6], 0⟩ rfl (by decide)).1 (by decide)

theorem parseBL_no_indet {l rest : List Nat} {bl : BodyLength}
    (h : parseBL l = some (bl, rest)) : bl ≠ .Indeterminate := by
  cases l with
  | nil => simp [parseBL] at h
  | cons o1 t =>
    by_cases h1 : o1 < 192
    · simp [parseBL, h1] at h
      rw [← h.1]
      intro hc
      cases hc
    · by_cases h2 : o1 < 224
      · cases t with
        | nil => simp [parseBL, h1, h2] at h
        | cons o2 t' =>
          simp [parseBL, h1, h2] at h
          rw [← h.1]
          intro hc
          cases hc
      · by_cases h3 : o1 < 255
        · simp [parseBL, h1, h2, h3] at h
          rw [← h.1]
          intro hc
          cases hc
        · match t with
          | [] => simp [parseBL, h1, h2, h3] at h
          | [_] => simp [parseBL, h1, h2, h3] at h
          | [_, _] => simp [parseBL, h1, h2, h3] at h
          | [_, _, _] => simp [parseBL, h1, h2, h3] at h
          | b1 :: b2 :: b3 :: b4 :: t' =>
            simp [parseBL, h1, h2, h3] at h
            rw [← h.1]
            intro hc
            cases hc

theorem body_length_no_indet {r r' : Leaf} {bl : BodyLength}
    (h : body_length_new_format r = .ok bl r') : bl ≠ .Indeterminate :=
  parseBL_no_indet ((body_length_agree r).1 bl r' h).1

theorem fillLoop_no_abort :
    ∀ (fuel amount : Nat) (buffered : List Nat) (r : Leaf) (pbl : Nat) (last : Bool),
      buffered.length ≤ amount →
      2 * (amount - buffered.length) + r.rem.length < fuel →
      fillLoop fuel amount buffered r pbl last ≠ .abort := by
  intro fuel
  induction fuel with
  | zero => intro amount buffered r pbl last _ hm; omega
  | succ fuel ih =>
    intro amount buffered r pbl last hle hm habs
    simp only [fillLoop] at habs
    by_cases h0 : 0 < min pbl (amount - buffered.length)
    · rw [if_pos h0, Leaf.read_eq] at habs
      by_cases hf : r.failAfter = true ∧ r.rem.length < min pbl (amount - buffered.length)
      · rw [if_pos hf] at habs
        simp at habs
      · rw [if_neg hf] at habs
        simp only [] at habs
        by_cases hs : (r.rem.take (min (min pbl (amount - buffered.length))
            r.rem.length)).length < min pbl (amount - buffered.length)
        · rw [if_pos hs] at habs
          simp at habs
        · rw [if_neg hs] at habs
          have hlen : (r.rem.take (min (min pbl (amount - buffered.length))
              r.rem.length)).length = min (min pbl (amount - buffered.length))
              r.rem.length := by simp
          refine ih amount
            (buffered ++ r.rem.take (min (min pbl (amount - buffered.length)) r.rem.length))
            ⟨r.rem.drop (min (min pbl (amount - buffered.length)) r.rem.length),
              r.failAfter⟩ _ last ?_ ?_ habs
          · simp only [List.length_append, hlen]
            omega
          · simp only [List.length_append, hlen, List.length_drop]
            omega
    · rw [if_neg h0] at habs
      by_cases hbk : buffered.length = amount ∨ last = true
      · rw [if_pos hbk] at habs
        simp at habs
      · rw [if_neg hbk] at habs
        have hp0 : pbl = 0 := by
          rcases Nat.eq_zero_of_not_pos h0 with h
          have : ¬ (buffered.length = amount) := fun hc => hbk (Or.inl hc)
          omega
        rw [if_neg (by omega : ¬ pbl ≠ 0)] at habs
        cases hP : body_length_new_format r with
        | ok bl r' =>
          rw [hP] at habs
          cases bl with
          | Full len =>
            have := body_length_ok_rem hP
            exact ih amount buffered r' len true hle (by omega) habs
          | Partial len =>
            have := body_length_ok_rem hP
            exact ih amount buffered r' len false hle (by omega) habs
          | Indeterminate => exact body_length_no_indet hP rfl
        | err e r' =>
          rw [hP] at habs
          simp at habs
        | abort => exact (body_length_agree r).2.2 hP

namespace BufferedReaderPartialBodyFilter

theorem do_fill_buffer_no_abort (s : BufferedReaderPartialBodyFilter) (amount : Nat)
    (hpre : ∀ b, s.buffer = some b → b.length - s.cursor < amount) :
    do_fill_buffer s amount ≠ .abort := by
  intro habs
  simp only [do_fill_buffer] at habs
  cases hb : s.buffer with
  | some b =>
    rw [hb] at habs
    have hlt : b.length - s.cursor < amount := hpre b hb
    rw [if_neg (by simp; omega)] at habs
    have hfl := fillLoop_no_abort (fillFuel amount s.reader) amount (b.drop s.cursor)
      s.reader s.partial_body_length s.last (by simp; omega)
      (by simp only [fillFuel, List.length_drop]; omega)
    cases hF : fillLoop (fillFuel amount s.reader) amount (b.drop s.cursor)
        s.reader s.partial_body_length s.last with
    | done g r' pbl' last' e =>
      rw [hF] at habs
      cases e <;> simp at habs
    | abort => exact hfl hF
  | none =>
    rw [hb] at habs
    rw [if_neg (by simp)] at habs
    have hfl := fillLoop_no_abort (fillFuel amount s.reader) amount []
      s.reader s.partial_body_length s.last (by simp)
      (by simp only [fillFuel, List.length_nil]; omega)
    cases hF : fillLoop (fillFuel amount s.reader) amount []
        s.reader s.partial_body_length s.last with
    | done g r' pbl' last' e =>
      rw [hF] at habs
      cases e <;> simp at habs
    | abort => exact hfl hF

theorem serve_no_abort {s : BufferedReaderPartialBodyFilter} {b : List Nat}
    (hb : s.buffer = some b) (amount : Nat) (hard and_consume : Bool) :
    serve s amount hard and_consume ≠ .abort := by
  intro habs
  simp only [serve, hb] at habs
  split at habs
  · cases habs
  · split at habs <;> cases habs

theorem data_helper_no_abort (s : BufferedReaderPartialBodyFilter) (amount : Nat)
    (hard and_consume : Bool) (hWF : cursorWF s) :
    data_helper s amount hard and_consume ≠ .abort := by
  intro habs
  cases hb : s.buffer with
  | some b =>
    simp only [data_helper, hb] at habs
    split at habs
    · rename_i hgt
      have hpre : ∀ c, s.buffer = some c → c.length - s.cursor < amount := by
        intro c hc
        rw [hb] at hc
        cases hc
        omega
      cases hF : do_fill_buffer s amount with
      | ok s' =>
        rw [hF] at habs
        obtain ⟨g, hg, -⟩ := (do_fill_buffer_installs s amount).1 s' hF
        exact serve_no_abort hg amount hard and_consume habs
      | err e s' =>
        rw [hF] at habs
        cases habs
      | abort => exact do_fill_buffer_no_abort s amount hpre hF
    · exact serve_no_abort hb amount hard and_consume habs
  | none =>
    simp only [data_helper, hb] at habs
    split at habs
    · have hop : (if hard && and_consume then Leaf.data_consume_hard s.reader amount
          else if and_consume then Leaf.data_consume s.reader amount
          else Leaf.data s.reader amount) ≠ .abort := by
        split
        · rw [Leaf.data_consume_hard_eq]
          split <;> simp
        · split
          · rw [Leaf.data_consume_eq]
            split <;> simp
          · unfold Leaf.data
            split <;> simp
      split at habs
      · split at habs <;> simp at habs
      · cases habs
      · rename_i heq
        exact hop heq
    · have hpre : ∀ c, s.buffer = some c → c.length - s.cursor < amount := by
        intro c hc
        rw [hb] at hc
        cases hc
      cases hF : do_fill_buffer s amount with
      | ok s' =>
        rw [hF] at habs
        obtain ⟨g, hg, -⟩ := (do_fill_buffer_installs s amount).1 s' hF
        exact serve_no_abort hg amount hard and_consume habs
      | err e s' =>
        rw [hF] at habs
        cases habs
      | abort => exact do_fill_buffer_no_abort s amount hpre hF

end BufferedReaderPartialBodyFilter

/-- C9: the length-header helper never returns the Indeterminate outcome on
a new-format stream (neither the pure decoder nor the reader-based parser),
so the `unreachable!()` abort branch of the buffering loop cannot fire; and
the filter's `data*` operations never abort — inner I/O errors and the
synthesised unexpected-end-of-file always surface as error returns. -/
theorem C9_indeterminate_abort_unreachable :
    (∀ (l rest : List Nat) (bl : BodyLength),
      parseBL l = some (bl, rest) → bl ≠ .Indeterminate) ∧
    (∀ (r r' : Leaf) (bl : BodyLength),
      body_length_new_format r = .ok bl r' → bl ≠ .Indeterminate) ∧
    (∀ (s : BufferedReaderPartialBodyFilter) (amount : Nat), cursorWF s →
      BufferedReaderPartialBodyFilter.data s amount ≠ .abort ∧
      BufferedReaderPartialBodyFilter.data_hard s amount ≠ .abort ∧
      BufferedReaderPartialBodyFilter.data_consume s amount ≠ .abort ∧
      BufferedReaderPartialBodyFilter.data_consume_hard s amount ≠ .abort) := by
  refine ⟨fun l rest bl h => parseBL_no_indet h,
    fun r r' bl h => body_length_no_indet h,
    fun s amount hWF => ⟨?_, ?_, ?_, ?_⟩⟩
  · exact BufferedReaderPartialBodyFilter.data_helper_no_abort s amount false false hWF
  · exact BufferedReaderPartialBodyFilter.data_helper_no_abort s amount true false hWF
  · exact BufferedReaderPartialBodyFilter.data_helper_no_abort s amount false true hWF
  · exact BufferedReaderPartialBodyFilter.data_helper_no_abort s amount true true hWF

/-- Witness for C9 at concrete inputs: a two-octet header parses to a Full
length (not Indeterminate), and the four operations return without abort on
a filter whose request crosses a chunk boundary into a truncated stream. -/
theorem C9_indeterminate_abort_unreachable_witness :
    parseBL [200, 3] = some (.Full ((200 - 192) * 256 + 3 + 192), []) ∧
    ((200 - 192) * 256 + 3 + 192 ≠ 0) ∧
    BufferedReaderPartialBodyFilter.data_consume_hard
      ⟨⟨[1, 2, 0], false⟩, 2, false, none, 0⟩ 5 ≠ .abort := by
  refine ⟨by decide, by decide, ?_⟩
  exact (C9_indeterminate_abort_unreachable.2.2
    ⟨⟨[1, 2, 0], false⟩, 2, false, none, 0⟩ 5 (by intro b hb; cases hb)).2.2.2

theorem chunkStreamF_congr :
    ∀ (f1 : Nat), ∀ (f2 pbl : Nat) (last : Bool) (raw : List Nat),
      raw.length < f1 → raw.length < f2 →
      chunkStreamF f1 pbl last raw = chunkStreamF f2 pbl last raw := by
  intro f1
  induction f1 with
  | zero => intro f2 pbl last raw h1 h2; omega
  | succ f1 ih =>
    intro f2 pbl last raw h1 h2
    cases f2 with
    | zero => omega
    | succ f2 =>
      simp only [chunkStreamF]
      cases last with
      | true => rfl
      | false =>
        simp only [Bool.false_eq_true, if_false]
        congr 1
        cases hP : parseBL (raw.drop pbl) with
        | none => rfl
        | some p =>
          obtain ⟨bl, rest⟩ := p
          have hr : rest.length < raw.length := by
            have := parseBL_shrinks hP
            have h2' : (raw.drop pbl).length ≤ raw.length := by simp
            omega
          cases bl with
          | Full len => exact ih f2 len true rest (by omega) (by omega)
          | Partial len => exact ih f2 len false rest (by omega) (by omega)
          | Indeterminate => rfl

theorem chunkStream_true (pbl : Nat) (raw : List Nat) :
    chunkStream pbl true raw = raw.take pbl := by
  simp [chunkStream, chunkStreamF]

theorem chunkStream_false (pbl : Nat) (raw : List Nat) :
    chunkStream pbl false raw =
      raw.take pbl ++
        (match parseBL (raw.drop pbl) with
         | some (.Full len, rest) => chunkStream len true rest
         | some (.Partial len, rest) => chunkStream len false rest
         | some (.Indeterminate, _) => []
         | none => []) := by
  simp only [chunkStream, chunkStreamF]
  simp only [Bool.false_eq_true, if_false]
  congr 1
  cases hP : parseBL (raw.drop pbl) with
  | none => rfl
  | some p =>
    obtain ⟨bl, rest⟩ := p
    have hr : rest.length < raw.length := by
      have := parseBL_shrinks hP
      have h2' : (raw.drop pbl).length ≤ raw.length := by simp
      omega
    cases bl with
    | Full len =>
      exact chunkStreamF_congr raw.length (rest.length + 1) len true rest (by omega) (by omega)
    | Partial len =>
      exact chunkStreamF_congr raw.length (rest.length + 1) len false rest (by omega) (by omega)
    | Indeterminate => rfl

theorem chunkStream_take {t pbl : Nat} (ht : t ≤ pbl) (last : Bool) (raw : List Nat) :
    chunkStream pbl last raw = raw.take t ++ chunkStream (pbl - t) last (raw.drop t) := by
  have hsplit : raw.take pbl = raw.take t ++ (raw.drop t).take (pbl - t) := by
    have : pbl = t + (pbl - t) := by omega
    rw [this, List.take_add]
    simp
  cases last with
  | true => rw [chunkStream_true, chunkStream_true, hsplit]
  | false =>
    rw [chunkStream_false, chunkStream_false, hsplit]
    have hdrop : raw.drop pbl = (raw.drop t).drop (pbl - t) := by
      rw [List.drop_drop]
      congr 1
      omega
    rw [hdrop, List.append_assoc]

theorem chunkStream_all {pbl : Nat} {raw : List Nat} (h : raw.length ≤ pbl)
    (last : Bool) : chunkStream pbl last raw = raw := by
  cases last with
  | true => rw [chunkStream_true, List.take_of_length_le h]
  | false =>
    rw [chunkStream_false, List.take_of_length_le h, List.drop_eq_nil_of_le h]
    simp [parseBL]

theorem chunkStream_zero_full {raw rest : List Nat} {len : Nat}
    (h : parseBL raw = some (.Full len, rest)) :
    chunkStream 0 false raw = chunkStream len true rest := by
  rw [chunkStream_false]
  simp [h]

theorem chunkStream_zero_partial {raw rest : List Nat} {len : Nat}
    (h : parseBL raw = some (.Partial len, rest)) :
    chunkStream 0 false raw = chunkStream len false rest := by
  rw [chunkStream_false]
  simp [h]

theorem chunkStream_zero_none {raw : List Nat} (h : parseBL raw = none) :
    chunkStream 0 false raw = [] := by
  rw [chunkStream_false]
  simp [h]

/-- Correctness of the buffering loop against the logical chunk stream: the
gathered bytes are always a prefix of `carried-over bytes ++ de-chunked
stream`; and when the loop ends without a pending error it has gathered
exactly `min amount (available)` and the remaining state denotes exactly the
rest of the stream. -/
theorem fillLoop_spec :
    ∀ (fuel amount : Nat) (buffered : List Nat) (r : Leaf) (pbl : Nat) (last : Bool)
      (g : List Nat) (r' : Leaf) (pbl' : Nat) (last' : Bool) (e : Option IoErr),
      fillLoop fuel amount buffered r pbl last = .done g r' pbl' last' e →
      buffered.length ≤ amount →
      (g = (buffered ++ chunkStream pbl last r.rem).take g.length ∧
        buffered.length ≤ g.length ∧ g.length ≤ amount) ∧
      (e = none →
        g ++ chunkStream pbl' last' r'.rem = buffered ++ chunkStream pbl last r.rem ∧
        g.length = min amount (buffered.length + (chunkStream pbl last r.rem).length)) := by
  intro fuel
  induction fuel with
  | zero => intro amount buffered r pbl last g r' pbl' last' e h _; cases h
  | succ fuel ih =>
    intro amount buffered r pbl last g r' pbl' last' e h hle
    simp only [fillLoop] at h
    by_cases h0 : 0 < min pbl (amount - buffered.length)
    · rw [if_pos h0, Leaf.read_eq] at h
      by_cases hf : r.failAfter = true ∧
          r.rem.length < min pbl (amount - buffered.length)
      · rw [if_pos hf] at h
        simp only [] at h
        cases h
        refine ⟨⟨(List.take_left buffered _).symm, le_refl _, hle⟩, ?_⟩
        intro he
        cases he
      · rw [if_neg hf] at h
        simp only [] at h
        have hlen : (r.rem.take (min (min pbl (amount - buffered.length))
            r.rem.length)).length = min (min pbl (amount - buffered.length))
            r.rem.length := by simp
        by_cases hs : (r.rem.take (min (min pbl (amount - buffered.length))
            r.rem.length)).length < min pbl (amount - buffered.length)
        · -- short read: inner end-of-stream, whole remaining stream gathered
          rw [if_pos hs] at h
          cases h
          rw [hlen] at hs
          have hrl : r.rem.length < min pbl (amount - buffered.length) := by omega
          have hm : min (min pbl (amount - buffered.length)) r.rem.length
              = r.rem.length := by omega
          rw [hm]
          rw [hm] at hlen
          have hall : chunkStream pbl last r.rem = r.rem :=
            chunkStream_all (by omega) last
          have htk : r.rem.take r.rem.length = r.rem := List.take_length r.rem
          rw [htk, hall]
          refine ⟨⟨(List.take_length _).symm, by simp, by simp; omega⟩, ?_⟩
          intro _
          constructor
          · have hnil : (⟨r.rem.drop r.rem.length, r.failAfter⟩ : Leaf).rem = [] := by
              simp
            rw [hnil, chunkStream_all (by simp) last]
            simp
          · simp
            omega
        · -- full read: recurse past the bytes just pulled
          rw [if_neg hs] at h
          rw [hlen] at hs
          have ht : min (min pbl (amount - buffered.length)) r.rem.length
              = min pbl (amount - buffered.length) := by omega
          rw [ht] at h hlen
          rw [hlen] at h
          set t := min pbl (amount - buffered.length) with hT
          have htr : t ≤ r.rem.length := by omega
          have htp : t ≤ pbl := by omega
          have hdec := chunkStream_take htp last r.rem
          have hIH := ih amount (buffered ++ r.rem.take t)
            ⟨r.rem.drop t, r.failAfter⟩ (pbl - t) last g r' pbl' last' e h
            (by simp; omega)
          have hassoc : buffered ++ chunkStream pbl last r.rem
              = (buffered ++ r.rem.take t) ++
                chunkStream (pbl - t) last ((⟨r.rem.drop t, r.failAfter⟩ : Leaf).rem) := by
            rw [hdec, List.append_assoc]
          refine ⟨⟨?_, ?_, hIH.1.2.2⟩, ?_⟩
          · rw [hassoc]
            exact hIH.1.1
          · have := hIH.1.2.1
            simp at this
            omega
          · intro he
            obtain ⟨ha, hc⟩ := hIH.2 he
            constructor
            · rw [hassoc]
              exact ha
            · rw [hc, hdec]
              simp
              omega
    · rw [if_neg h0] at h
      by_cases hbk : buffered.length = amount ∨ last = true
      · rw [if_pos hbk] at h
        cases h
        refine ⟨⟨(List.take_left buffered _).symm, le_refl _, hle⟩, ?_⟩
        intro _
        refine ⟨rfl, ?_⟩
        rcases hbk with hbk | hbk
        · omega
        · by_cases hba : buffered.length = amount
          · omega
          · have hp0 : pbl = 0 := by omega
            rw [hp0, hbk, chunkStream_true]
            simp
            exact hle
      · rw [if_neg hbk] at h
        have hp0 : pbl = 0 := by
          have : ¬ (buffered.length = amount) := fun hc => hbk (Or.inl hc)
          omega
        have hlast : last = false := by
          cases hL : last
          · rfl
          · exact absurd (Or.inr hL) hbk
        rw [if_neg (by omega : ¬ pbl ≠ 0)] at h
        cases hP : body_length_new_format r with
        | ok bl r2 =>
          rw [hP] at h
          have hagree := (body_length_agree r).1 bl r2 hP
          cases bl with
          | Full len =>
            have hIH := ih amount buffered r2 len true g r' pbl' last' e h hle
            have hstream : chunkStream pbl last r.rem
                = chunkStream len true r2.rem := by
              rw [hp0, hlast]
              exact chunkStream_zero_full hagree.1
            rw [hstream]
            exact hIH
          | Partial len =>
            have hIH := ih amount buffered r2 len false g r' pbl' last' e h hle
            have hstream : chunkStream pbl last r.rem
                = chunkStream len false r2.rem := by
              rw [hp0, hlast]
              exact chunkStream_zero_partial hagree.1
            rw [hstream]
            exact hIH
          | Indeterminate => cases h
        | err e2 r2 =>
          rw [hP] at h
          cases h
          refine ⟨⟨(List.take_left buffered _).symm, le_refl _, hle⟩, ?_⟩
          intro he
          cases he
        | abort =>
          rw [hP] at h
          cases h

theorem pbfStream_some {s : BufferedReaderPartialBodyFilter} {b : List Nat}
    (hb : s.buffer = some b) :
    pbfStream s = b.drop s.cursor ++
      chunkStream s.partial_body_length s.last s.reader.rem := by
  simp [pbfStream, hb]

theorem pbfStream_none {s : BufferedReaderPartialBodyFilter}
    (hb : s.buffer = none) :
    pbfStream s = chunkStream s.partial_body_length s.last s.reader.rem := by
  simp [pbfStream, hb]

theorem do_fill_buffer_spec (s : BufferedReaderPartialBodyFilter) (amount : Nat)
    (hpre : ∀ b, s.buffer = some b → b.length - s.cursor < amount) :
    (∀ s', BufferedReaderPartialBodyFilter.do_fill_buffer s amount = .ok s' →
      ∃ g, s'.buffer = some g ∧ s'.cursor = 0 ∧
        pbfStream s' = pbfStream s ∧
        g.length = min amount (pbfStream s).length ∧
        g = (pbfStream s).take g.length) ∧
    (∀ e s', BufferedReaderPartialBodyFilter.do_fill_buffer s amount = .err e s' →
      ∃ g, s'.buffer = some g ∧ s'.cursor = 0 ∧
        g = (pbfStream s).take g.length) := by
  have key : ∀ (buffered0 : List Nat),
      (match s.buffer with
        | some old => old.drop s.cursor
        | none => []) = buffered0 →
      buffered0.length ≤ amount →
      pbfStream s = buffered0 ++
        chunkStream s.partial_body_length s.last s.reader.rem →
      (∀ s', BufferedReaderPartialBodyFilter.do_fill_buffer s amount = .ok s' →
        ∃ g, s'.buffer = some g ∧ s'.cursor = 0 ∧
          pbfStream s' = pbfStream s ∧
          g.length = min amount (pbfStream s).length ∧
          g = (pbfStream s).take g.length) ∧
      (∀ e s', BufferedReaderPartialBodyFilter.do_fill_buffer s amount = .err e s' →
        ∃ g, s'.buffer = some g ∧ s'.cursor = 0 ∧
          g = (pbfStream s).take g.length) := by
    intro buffered0 hbuf hblen hstream
    constructor
    · intro s' h
      simp only [BufferedReaderPartialBodyFilter.do_fill_buffer, hbuf] at h
      split at h
      · cases h
      · cases hF : fillLoop (fillFuel amount s.reader) amount buffered0 s.reader
            s.partial_body_length s.last with
        | done g r2 pbl2 last2 e2 =>
          rw [hF] at h
          cases e2 with
          | some er => simp at h
          | none =>
            simp only [] at h
            cases h
            have hspec := fillLoop_spec (fillFuel amount s.reader) amount buffered0
              s.reader s.partial_body_length s.last g r2 pbl2 last2 none hF hblen
            obtain ⟨ha, hc⟩ := hspec.2 rfl
            refine ⟨g, rfl, rfl, ?_, ?_, ?_⟩
            · rw [pbfStream_some rfl]
              simp only [List.drop_zero]
              rw [hstream]
              exact ha
            · rw [hstream]
              simp only [List.length_append]
              exact hc
            · rw [hstream]
              exact hspec.1.1
        | abort =>
          rw [hF] at h
          cases h
    · intro e s' h
      simp only [BufferedReaderPartialBodyFilter.do_fill_buffer, hbuf] at h
      split at h
      · cases h
      · cases hF : fillLoop (fillFuel amount s.reader) amount buffered0 s.reader
            s.partial_body_length s.last with
        | done g r2 pbl2 last2 e2 =>
          rw [hF] at h
          cases e2 with
          | some er =>
            simp only [] at h
            cases h
            have hspec := fillLoop_spec (fillFuel amount s.reader) amount buffered0
              s.reader s.partial_body_length s.last g r2 pbl2 last2 (some e) hF hblen
            refine ⟨g, rfl, rfl, ?_⟩
            rw [hstream]
            exact hspec.1.1
          | none => simp at h
        | abort =>
          rw [hF] at h
          cases h
  cases hb : s.buffer with
  | some b =>
    refine key (b.drop s.cursor) (by rw [hb]) ?_ ?_
    · have := hpre b hb
      simp
      omega
    · rw [pbfStream_some hb]
  | none =>
    refine key [] (by rw [hb]) (by simp) ?_
    rw [pbfStream_none hb]
    simp

theorem c4_limitor_equiv (l : Leaf) (L a : Nat) (v : List Nat)
    (s' : BufferedReaderLimitor Leaf)
    (h : BufferedReaderLimitor.data_consume leafImpl ⟨l, L⟩ a = .ok v s') :
    ∃ (vd w : List Nat) (s₂ : BufferedReaderLimitor Leaf),
      BufferedReaderLimitor.data leafImpl ⟨l, L⟩ a = .ok vd ⟨l, L⟩ ∧
      BufferedReaderLimitor.consume leafImpl ⟨l, L⟩ (min a vd.length) = .ok w s₂ ∧
      v.take (min a vd.length) = w.take (min a vd.length) ∧
      min a vd.length ≤ v.length ∧
      limitorStream s' = limitorStream s₂ ∧
      limitorStream s' = (limitorStream ⟨l, L⟩).drop (min a vd.length) ∧
      v.take (min a vd.length) = (limitorStream ⟨l, L⟩).take (min a vd.length) := by
  simp only [BufferedReaderLimitor.data_consume, leafImpl] at h
  rw [Leaf.data_consume_eq] at h
  by_cases hfail : l.failAfter = true ∧ l.rem.length <
      min a (⟨l, L⟩ : BufferedReaderLimitor Leaf).limit
  · rw [if_pos hfail] at h
    simp only [] at h
    cases h
  · rw [if_neg hfail] at h
    simp only [] at h
    cases h
    have hLa : L - min a L + min a L = L := by omega
    set n := min a (min L l.rem.length) with hN
    have hvd : BufferedReaderLimitor.data leafImpl ⟨l, L⟩ a =
        .ok (l.rem.take L) ⟨l, L⟩ := by
      rw [lim_data_norm]
      simp only [leafImpl]
      unfold Leaf.data
      rw [if_neg hfail]
    have hvdlen : (l.rem.take L).length = min L l.rem.length := by simp
    have hn2 : min a (l.rem.take L).length = n := by rw [hvdlen]
    have hnL : n ≤ L := by omega
    have hnrem : n ≤ l.rem.length := by omega
    have hcons : BufferedReaderLimitor.consume leafImpl ⟨l, L⟩ n =
        .ok (l.rem.take (min (L - n + n) l.rem.length))
          ⟨⟨l.rem.drop n, l.failAfter⟩, L - n⟩ := by
      simp only [BufferedReaderLimitor.consume, leafImpl, Leaf.consume, if_pos hnL,
        if_pos hnrem]
    have hnn : L - n + n = L := by omega
    rw [hnn] at hcons
    refine ⟨l.rem.take L, l.rem.take (min L l.rem.length),
      ⟨⟨l.rem.drop n, l.failAfter⟩, L - n⟩, hvd, ?_, ?_, ?_, ?_, ?_, ?_⟩
    · rw [hn2]
      exact hcons
    · rw [hLa, Nat.min_comm l.rem.length L]
    · simp only [List.length_take, hLa]
      omega
    · simp only [limitorStream]
      by_cases hcase : l.rem.length < min a L
      · rw [show a ⊓ L ⊓ l.rem.length = l.rem.length by omega,
          show n = l.rem.length by omega]
        simp
      · rw [show a ⊓ L ⊓ l.rem.length = a ⊓ L by omega,
          show n = a ⊓ L by omega]
    · simp only [limitorStream, List.length_take]
      rw [← hN, List.drop_take]
      by_cases hcase : l.rem.length < min a L
      · rw [show a ⊓ L ⊓ l.rem.length = l.rem.length by omega,
          show n = l.rem.length by omega]
        simp
      · rw [show a ⊓ L ⊓ l.rem.length = a ⊓ L by omega,
          show n = a ⊓ L by omega]
    · simp only [limitorStream, List.length_take, hLa]
      rw [List.take_take, List.take_take, List.take_eq_take]
      omega

theorem c4_fill_aux (s sf : BufferedReaderPartialBodyFilter) (a : Nat)
    (v : List Nat) (s' : BufferedReaderPartialBodyFilter)
    (hpre : ∀ b, s.buffer = some b → b.length - s.cursor < a)
    (hF : BufferedReaderPartialBodyFilter.do_fill_buffer s a = .ok sf)
    (hserve : BufferedReaderPartialBodyFilter.serve sf a false true = .ok v s')
    (hdata : BufferedReaderPartialBodyFilter.data s a =
      BufferedReaderPartialBodyFilter.serve sf a false false) :
    ∃ (vd w : List Nat) (sd s₂ : BufferedReaderPartialBodyFilter),
      BufferedReaderPartialBodyFilter.data s a = .ok vd sd ∧
      BufferedReaderPartialBodyFilter.consume sd (min a vd.length) = .ok w s₂ ∧
      v.take (min a vd.length) = w.take (min a vd.length) ∧
      min a vd.length ≤ v.length ∧
      pbfStream s' = pbfStream s₂ ∧
      pbfStream s' = (pbfStream s).drop (min a vd.length) ∧
      v.take (min a vd.length) = (pbfStream s).take (min a vd.length) := by
  obtain ⟨g, hg, hcur, hstr, hglen, hgpre⟩ := (do_fill_buffer_spec s a hpre).1 sf hF
  simp only [BufferedReaderPartialBodyFilter.serve, hg, hcur, List.drop_zero,
    Bool.false_eq_true, false_and, if_false, if_true, Nat.zero_add]
    at hserve hdata
  rw [OpRes.ok.injEq] at hserve
  obtain ⟨hv, hs'⟩ := hserve
  subst hv
  subst hs'
  set n := min a g.length with hN
  have hcons : BufferedReaderPartialBodyFilter.consume sf n =
      .ok (g.drop sf.cursor)
        ⟨sf.reader, sf.partial_body_length, sf.last, some g, sf.cursor + n⟩ := by
    simp only [BufferedReaderPartialBodyFilter.consume, hg]
    rw [if_pos (by omega)]
  rw [hcur] at hcons
  simp only [List.drop_zero, Nat.zero_add] at hcons
  refine ⟨g, g, sf, ⟨sf.reader, sf.partial_body_length, sf.last, some g, n⟩,
    hdata, hcons, rfl, by omega, ?_, ?_, ?_⟩
  · rfl
  · have hs2 : pbfStream ⟨sf.reader, sf.partial_body_length, sf.last, some g, n⟩
        = (pbfStream sf).drop n := by
      rw [pbfStream_some rfl, pbfStream_some hg, hcur]
      simp only [List.drop_zero]
      rw [List.drop_append_of_le_length (by omega)]
    rw [hs2, hstr]
  · have hpre2 : g.take n = ((pbfStream s).take g.length).take n := by
      rw [← hgpre]
    rw [hpre2, List.take_take]
    congr 1
    omega

theorem c4_fast_aux (s : BufferedReaderPartialBodyFilter) (a : Nat)
    (v : List Nat) (s' : BufferedReaderPartialBodyFilter)
    (hb : s.buffer = none)
    (hfast : a ≤ s.partial_body_length ∨ s.last = true)
    (h : BufferedReaderPartialBodyFilter.data_consume s a = .ok v s') :
    ∃ (vd w : List Nat) (sd s₂ : BufferedReaderPartialBodyFilter),
      BufferedReaderPartialBodyFilter.data s a = .ok vd sd ∧
      BufferedReaderPartialBodyFilter.consume sd (min a vd.length) = .ok w s₂ ∧
      v.take (min a vd.length) = w.take (min a vd.length) ∧
      min a vd.length ≤ v.length ∧
      pbfStream s' = pbfStream s₂ ∧
      pbfStream s' = (pbfStream s).drop (min a vd.length) ∧
      v.take (min a vd.length) = (pbfStream s).take (min a vd.length) := by
  set R := s.reader.rem with hRdef
  set P := s.partial_body_length with hPdef
  simp only [BufferedReaderPartialBodyFilter.data_consume,
    BufferedReaderPartialBodyFilter.data_helper, hb, if_pos hfast,
    Bool.false_and, Bool.and_false, if_true, Bool.false_eq_true, if_false] at h
  rw [Leaf.data_consume_eq] at h
  by_cases hfail : s.reader.failAfter = true ∧ s.reader.rem.length < a
  · rw [if_pos hfail] at h
    simp only [] at h
    cases h
  · rw [if_neg hfail] at h
    simp only [Bool.false_eq_true, false_and, if_false] at h
    rw [OpRes.ok.injEq] at h
    obtain ⟨hv, hs'⟩ := h
    subst hv
    subst hs'
    set ab := min R.length P with hABdef
    set n := min a ab with hNdef
    have habR : ab ≤ R.length := by omega
    have habP : ab ≤ P := by omega
    have hdata : BufferedReaderPartialBodyFilter.data s a =
        .ok (R.take ab) ⟨s.reader, P, s.last, none, s.cursor⟩ := by
      simp only [BufferedReaderPartialBodyFilter.data,
        BufferedReaderPartialBodyFilter.data_helper, hb, if_pos hfast,
        Bool.false_and, Bool.and_false, if_true, Bool.false_eq_true, if_false]
      unfold Leaf.data
      rw [if_neg hfail]
      simp
    have hvdlen : (R.take ab).length = ab := by simp; omega
    have hn2 : min a (R.take ab).length = n := by rw [hvdlen]
    have hcons : BufferedReaderPartialBodyFilter.consume
        ⟨s.reader, P, s.last, none, s.cursor⟩ n =
        .ok R ⟨⟨R.drop n, s.reader.failAfter⟩, P - n, s.last, none, s.cursor⟩ := by
      simp only [BufferedReaderPartialBodyFilter.consume]
      rw [if_pos (by omega : n ≤ P)]
      simp only [Leaf.consume]
      rw [if_pos (by omega : n ≤ R.length)]
    refine ⟨R.take ab, R, ⟨s.reader, P, s.last, none, s.cursor⟩,
      ⟨⟨R.drop n, s.reader.failAfter⟩, P - n, s.last, none, s.cursor⟩,
      hdata, by rw [hn2]; exact hcons, ?_, ?_, ?_, ?_, ?_⟩
    · rw [hn2, List.take_take]
      congr 1
      omega
    · rw [hn2, hvdlen]
      omega
    · simp only [pbfStream, List.nil_append]
      by_cases hap : a ≤ P
      · rw [show min a R.length = n by omega]
      · have hlast : s.last = true := hfast.resolve_left hap
        by_cases hRP : R.length ≤ P
        · rw [show min a R.length = n by omega]
        · rw [hlast, show P - n = 0 by omega, chunkStream_true, chunkStream_true]
          simp
    · rw [hn2, pbfStream_none hb]
      simp only [pbfStream, List.nil_append]
      cases hL : s.last with
      | false =>
        have hap : a ≤ P := by
          rcases hfast with hf | hf
          · exact hf
          · rw [hL] at hf
            cases hf
        rw [show min a R.length = n by omega]
        have hdec := chunkStream_take (show n ≤ P by omega) false R
        rw [hdec, List.drop_append_of_le_length (by simp; omega), List.drop_take]
        simp
      | true =>
        rw [chunkStream_true, chunkStream_true, List.drop_take]
        by_cases hap : a ≤ P
        · rw [show min a R.length = n by omega]
        · by_cases hRP : R.length ≤ P
          · rw [show min a R.length = n by omega]
          · rw [show P - n = 0 by omega]
            simp
    · rw [hn2, pbfStream_none hb, List.take_take, show min n ab = n by omega]
      cases hL : s.last with
      | false =>
        have hap : a ≤ P := by
          rcases hfast with hf | hf
          · exact hf
          · rw [hL] at hf
            cases hf
        have hdec := chunkStream_take (show n ≤ P by omega) false R
        rw [hdec, List.take_append_of_le_length (by simp; omega), List.take_take]
        congr 1
        omega
      | true =>
        rw [chunkStream_true, List.take_take, show min n P = n by omega]

theorem c4_buf_aux (s : BufferedReaderPartialBodyFilter) (a : Nat)
    (v : List Nat) (s' : BufferedReaderPartialBodyFilter) (b : List Nat)
    (hb : s.buffer = some b) (hWF : s.cursor ≤ b.length)
    (hfit : ¬ b.length - s.cursor < a)
    (h : BufferedReaderPartialBodyFilter.data_consume s a = .ok v s') :
    ∃ (vd w : List Nat) (sd s₂ : BufferedReaderPartialBodyFilter),
      BufferedReaderPartialBodyFilter.data s a = .ok vd sd ∧
      BufferedReaderPartialBodyFilter.consume sd (min a vd.length) = .ok w s₂ ∧
      v.take (min a vd.length) = w.take (min a vd.length) ∧
      min a vd.length ≤ v.length ∧
      pbfStream s' = pbfStream s₂ ∧
      pbfStream s' = (pbfStream s).drop (min a vd.length) ∧
      v.take (min a vd.length) = (pbfStream s).take (min a vd.length) := by
  simp only [BufferedReaderPartialBodyFilter.data_consume,
    BufferedReaderPartialBodyFilter.data_helper, hb, if_neg hfit,
    BufferedReaderPartialBodyFilter.serve, Bool.false_eq_true, false_and,
    if_false, if_true] at h
  rw [OpRes.ok.injEq] at h
  obtain ⟨hv, hs'⟩ := h
  subst hv
  subst hs'
  set B := b.drop s.cursor with hBdef
  set n := min a B.length with hNdef
  have hBlen : B.length = b.length - s.cursor := by simp [hBdef]
  have hdl : (b.drop s.cursor).length = b.length - s.cursor := by simp
  have hdata : BufferedReaderPartialBodyFilter.data s a = .ok B s := by
    simp only [BufferedReaderPartialBodyFilter.data,
      BufferedReaderPartialBodyFilter.data_helper, hb, if_neg hfit,
      BufferedReaderPartialBodyFilter.serve, Bool.false_eq_true, false_and,
      if_false]
  have hcons : BufferedReaderPartialBodyFilter.consume s n =
      .ok B ⟨s.reader, s.partial_body_length, s.last, some b, s.cursor + n⟩ := by
    simp only [BufferedReaderPartialBodyFilter.consume, hb]
    rw [if_pos (by omega)]
  refine ⟨B, B, s, ⟨s.reader, s.partial_body_length, s.last, some b, s.cursor + n⟩,
    hdata, hcons, rfl, by omega, rfl, ?_, ?_⟩
  · rw [pbfStream_some (rfl : (⟨s.reader, s.partial_body_length, s.last, some b,
      s.cursor + n⟩ : BufferedReaderPartialBodyFilter).buffer = some b),
      pbfStream_some hb]
    rw [List.drop_append_of_le_length (by omega)]
    congr 1
    rw [hBdef, List.drop_drop]
  · rw [pbfStream_some hb, List.take_append_of_le_length (by omega)]

theorem c4_pbf_equiv (s : BufferedReaderPartialBodyFilter) (a : Nat)
    (v : List Nat) (s' : BufferedReaderPartialBodyFilter)
    (hWF : cursorWF s)
    (h : BufferedReaderPartialBodyFilter.data_consume s a = .ok v s') :
    ∃ (vd w : List Nat) (sd s₂ : BufferedReaderPartialBodyFilter),
      BufferedReaderPartialBodyFilter.data s a = .ok vd sd ∧
      BufferedReaderPartialBodyFilter.consume sd (min a vd.length) = .ok w s₂ ∧
      v.take (min a vd.length) = w.take (min a vd.length) ∧
      min a vd.length ≤ v.length ∧
      pbfStream s' = pbfStream s₂ ∧
      pbfStream s' = (pbfStream s).drop (min a vd.length) ∧
      v.take (min a vd.length) = (pbfStream s).take (min a vd.length) := by
  cases hb : s.buffer with
  | some b =>
    by_cases hfit : b.length - s.cursor < a
    · have hpre : ∀ c, s.buffer = some c → c.length - s.cursor < a := by
        intro c hc
        rw [hb] at hc
        cases hc
        exact hfit
      have hmain : (match BufferedReaderPartialBodyFilter.do_fill_buffer s a with
          | .ok sf => BufferedReaderPartialBodyFilter.serve sf a false true
          | .err e sf => .err e sf
          | .abort => .abort) = .ok v s' := by
        rw [← h]
        simp only [BufferedReaderPartialBodyFilter.data_consume,
          BufferedReaderPartialBodyFilter.data_helper, hb, if_pos hfit]
      cases hF : BufferedReaderPartialBodyFilter.do_fill_buffer s a with
      | ok sf =>
        rw [hF] at hmain
        have hdata : BufferedReaderPartialBodyFilter.data s a =
            BufferedReaderPartialBodyFilter.serve sf a false false := by
          simp only [BufferedReaderPartialBodyFilter.data,
            BufferedReaderPartialBodyFilter.data_helper, hb, if_pos hfit, hF]
        exact c4_fill_aux s sf a v s' hpre hF hmain hdata
      | err e sf =>
        rw [hF] at hmain
        cases hmain
      | abort =>
        rw [hF] at hmain
        cases hmain
    · exact c4_buf_aux s a v s' b hb (hWF b hb) hfit h
  | none =>
    by_cases hfast : a ≤ s.partial_body_length ∨ s.last = true
    · exact c4_fast_aux s a v s' hb hfast h
    · have hpre : ∀ c, s.buffer = some c → c.length - s.cursor < a := by
        intro c hc
        rw [hb] at hc
        cases hc
      have hmain : (match BufferedReaderPartialBodyFilter.do_fill_buffer s a with
          | .ok sf => BufferedReaderPartialBodyFilter.serve sf a false true
          | .err e sf => .err e sf
          | .abort => .abort) = .ok v s' := by
        rw [← h]
        simp only [BufferedReaderPartialBodyFilter.data_consume,
          BufferedReaderPartialBodyFilter.data_helper, hb, if_neg hfast]
      cases hF : BufferedReaderPartialBodyFilter.do_fill_buffer s a with
      | ok sf =>
        rw [hF] at hmain
        have hdata : BufferedReaderPartialBodyFilter.data s a =
            BufferedReaderPartialBodyFilter.serve sf a false false := by
          simp only [BufferedReaderPartialBodyFilter.data,
            BufferedReaderPartialBodyFilter.data_helper, hb, if_neg hfast, hF]
        exact c4_fill_aux s sf a v s' hpre hF hmain hdata
      | err e sf =>
        rw [hF] at hmain
        cases hmain
      | abort =>
        rw [hF] at hmain
        cases hmain

/-- C4: for both filters, a successful `data_consume(amount)` is equivalent
to the recipe `let v := data(amount); let n := min amount (length v);
consume n; return the post-consume view`: the recipe succeeds, both views
agree on the `n` consumed bytes (which are exactly the next `n` bytes of the
filter's logical stream), the view holds at least `n` bytes, and the
post-states denote the same remaining stream, namely the original stream
with exactly `n` bytes dropped — never more, also when the inner stream ends
early. -/
theorem C4_data_consume_equiv :
    (∀ (l : Leaf) (L a : Nat) (v : List Nat) (s' : BufferedReaderLimitor Leaf),
      BufferedReaderLimitor.data_consume leafImpl ⟨l, L⟩ a = .ok v s' →
      ∃ (vd w : List Nat) (s₂ : BufferedReaderLimitor Leaf),
        BufferedReaderLimitor.data leafImpl ⟨l, L⟩ a = .ok vd ⟨l, L⟩ ∧
        BufferedReaderLimitor.consume leafImpl ⟨l, L⟩ (min a vd.length) = .ok w s₂ ∧
        v.take (min a vd.length) = w.take (min a vd.length) ∧
        min a vd.length ≤ v.length ∧
        limitorStream s' = limitorStream s₂ ∧
        limitorStream s' = (limitorStream ⟨l, L⟩).drop (min a vd.length) ∧
        v.take (min a vd.length) = (limitorStream ⟨l, L⟩).take (min a vd.length)) ∧
    (∀ (s : BufferedReaderPartialBodyFilter) (a : Nat) (v : List Nat)
      (s' : BufferedReaderPartialBodyFilter), cursorWF s →
      BufferedReaderPartialBodyFilter.data_consume s a = .ok v s' →
      ∃ (vd w : List Nat) (sd s₂ : BufferedReaderPartialBodyFilter),
        BufferedReaderPartialBodyFilter.data s a = .ok vd sd ∧
        BufferedReaderPartialBodyFilter.consume sd (min a vd.length) = .ok w s₂ ∧
        v.take (min a vd.length) = w.take (min a vd.length) ∧
        min a vd.length ≤ v.length ∧
        pbfStream s' = pbfStream s₂ ∧
        pbfStream s' = (pbfStream s).drop (min a vd.length) ∧
        v.take (min a vd.length) = (pbfStream s).take (min a vd.length)) :=
  ⟨c4_limitor_equiv, c4_pbf_equiv⟩

/-- Witness for C4 at concrete inputs: a limitor with budget 2 over three
bytes asked for 5, and a partial-body filter whose 10-byte request crosses a
chunk boundary. -/
theorem C4_data_consume_equiv_witness :
    (∃ (vd w : List Nat) (s₂ : BufferedReaderLimitor Leaf),
      BufferedReaderLimitor.data leafImpl ⟨⟨[1, 2, 3], false⟩, 2⟩ 5 =
        .ok vd ⟨⟨[1, 2, 3], false⟩, 2⟩ ∧
      BufferedReaderLimitor.consume leafImpl ⟨⟨[1, 2, 3], false⟩, 2⟩
        (min 5 vd.length) = .ok w s₂ ∧
      List.take (min 5 vd.length) [1, 2] = w.take (min 5 vd.length) ∧
      min 5 vd.length ≤ ([1, 2] : List Nat).length ∧
      limitorStream ⟨⟨[3], false⟩, 0⟩ = limitorStream s₂ ∧
      limitorStream ⟨⟨[3], false⟩, 0⟩ =
        (limitorStream ⟨⟨[1, 2, 3], false⟩, 2⟩).drop (min 5 vd.length) ∧
      List.take (min 5 vd.length) [1, 2] =
        (limitorStream ⟨⟨[1, 2, 3], false⟩, 2⟩).take (min 5 vd.length)) ∧
    (∃ (vd w : List Nat) (sd s₂ : BufferedReaderPartialBodyFilter),
      BufferedReaderPartialBodyFilter.data
        (.new ⟨[1, 2, 3, 4, 6, 5, 6, 7, 8, 9, 10], false⟩ 4) 10 = .ok vd sd ∧
      BufferedReaderPartialBodyFilter.consume sd (min 10 vd.length) = .ok w s₂ ∧
      List.take (min 10 vd.length) [1, 2, 3, 4, 5, 6, 7, 8, 9, 10] =
        w.take (min 10 vd.length) ∧
      min 10 vd.length ≤ ([1, 2, 3, 4, 5, 6, 7, 8, 9, 10] : List Nat).length ∧
      pbfStream ⟨⟨[], false⟩, 0, true, some [1, 2, 3, 4, 5, 6, 7, 8, 9, 10], 10⟩ =
        pbfStream s₂ ∧
      pbfStream ⟨⟨[], false⟩, 0, true, some [1, 2, 3, 4, 5, 6, 7, 8, 9, 10], 10⟩ =
        (pbfStream (.new ⟨[1, 2, 3, 4, 6, 5, 6, 7, 8, 9, 10], false⟩ 4)).drop
          (min 10 vd.length) ∧
      List.take (min 10 vd.length) [1, 2, 3, 4, 5, 6, 7, 8, 9, 10] =
        (pbfStream (.new ⟨[1, 2, 3, 4, 6, 5, 6, 7, 8, 9, 10], false⟩ 4)).take
          (min 10 vd.length)) :=
  ⟨C4_data_consume_equiv.1 ⟨[1, 2, 3], false⟩ 2 5 [1, 2] ⟨⟨[3], false⟩, 0⟩ (by decide),
   C4_data_consume_equiv.2 (.new ⟨[1, 2, 3, 4, 6, 5, 6, 7, 8, 9, 10], false⟩ 4) 10
     [1, 2, 3, 4, 5, 6, 7, 8, 9, 10]
     ⟨⟨[], false⟩, 0, true, some [1, 2, 3, 4, 5, 6, 7, 8, 9, 10], 10⟩
     (fun b hb => Option.noConfusion hb) (by decide)⟩

theorem data_full_buffer {s' : BufferedReaderPartialBodyFilter} {g : List Nat}
    (hb : s'.buffer = some g) (hc : s'.cursor = 0) :
    BufferedReaderPartialBodyFilter.data s' g.length = .ok g s' := by
  simp only [BufferedReaderPartialBodyFilter.data,
    BufferedReaderPartialBodyFilter.data_helper, hb, hc,
    BufferedReaderPartialBodyFilter.serve]
  simp

/-- C6: whenever a request is routed through the slow path (the request
exceeds the unread side buffer, or there is no side buffer and the request
crosses the current chunk), any error returned — an inner-reader error, a
header-parse error, or the hard-mode unexpected-end-of-file on a shortfall —
leaves the bytes gathered so far installed as the side buffer with the
cursor reset: they are a prefix of the filter's logical stream, and a
subsequent `data` call returns exactly them.  This covers every operation,
since all six are `data_helper` instances, in particular the `*_hard`
calls. -/
theorem C6_error_path_buffer_installed :
    ∀ (s : BufferedReaderPartialBodyFilter) (amount : Nat) (hard and_consume : Bool)
      (e : IoErr) (s' : BufferedReaderPartialBodyFilter),
      (∀ b, s.buffer = some b → b.length - s.cursor < amount) →
      (s.buffer = none → ¬ (amount ≤ s.partial_body_length ∨ s.last = true)) →
      BufferedReaderPartialBodyFilter.data_helper s amount hard and_consume = .err e s' →
      ∃ g, s'.buffer = some g ∧ s'.cursor = 0 ∧
        g = (pbfStream s).take g.length ∧
        BufferedReaderPartialBodyFilter.data s' g.length = .ok g s' := by
  intro s amount hard and_consume e s' hpre hnofast h
  have main : (match BufferedReaderPartialBodyFilter.do_fill_buffer s amount with
      | .ok sf => BufferedReaderPartialBodyFilter.serve sf amount hard and_consume
      | .err e2 sf => .err e2 sf
      | .abort => .abort) = .err e s' := by
    cases hb : s.buffer with
    | some b =>
      rw [← h]
      simp only [BufferedReaderPartialBodyFilter.data_helper, hb,
        if_pos (hpre b hb)]
    | none =>
      rw [← h]
      simp only [BufferedReaderPartialBodyFilter.data_helper, hb]
      rw [if_neg (hnofast hb)]
  cases hF : BufferedReaderPartialBodyFilter.do_fill_buffer s amount with
  | ok sf =>
    rw [hF] at main
    obtain ⟨g, hg, hc0, -, -, hgtake⟩ :=
      (do_fill_buffer_spec s amount hpre).1 sf hF
    simp only [BufferedReaderPartialBodyFilter.serve, hg] at main
    split at main
    · rw [OpRes.err.injEq] at main
      obtain ⟨-, hs'⟩ := main
      subst hs'
      exact ⟨g, hg, hc0, hgtake, data_full_buffer hg hc0⟩
    · split at main <;> cases main
  | err e2 sf =>
    rw [hF] at main
    rw [OpRes.err.injEq] at main
    obtain ⟨-, hs'⟩ := main
    subst hs'
    obtain ⟨g, hg, hc0, hgtake⟩ :=
      (do_fill_buffer_spec s amount hpre).2 e2 sf hF
    exact ⟨g, hg, hc0, hgtake, data_full_buffer hg hc0⟩
  | abort =>
    rw [hF] at main
    cases main

/-- Witness for C6: chunks of 4 and (final) 6 bytes whose payload ends 3
bytes early; `data_consume_hard 10` fails with end-of-file but the 7 gathered
bytes are installed and a subsequent `data` returns them. -/
theorem C6_error_path_buffer_installed_witness :
    ∃ g, (⟨⟨[], false⟩, 3, true, some [1, 2, 3, 4, 5, 6, 7], 0⟩ :
        BufferedReaderPartialBodyFilter).buffer = some g ∧
      (⟨⟨[], false⟩, 3, true, some [1, 2, 3, 4, 5, 6, 7], 0⟩ :
        BufferedReaderPartialBodyFilter).cursor = 0 ∧
      g = (pbfStream (.new ⟨[1, 2, 3, 4, 6, 5, 6, 7], false⟩ 4)).take g.length ∧
      BufferedReaderPartialBodyFilter.data
        ⟨⟨[], false⟩, 3, true, some [1, 2, 3, 4, 5, 6, 7], 0⟩ g.length =
        .ok g ⟨⟨[], false⟩, 3, true, some [1, 2, 3, 4, 5, 6, 7], 0⟩ :=
  C6_error_path_buffer_installed (.new ⟨[1, 2, 3, 4, 6, 5, 6, 7], false⟩ 4) 10
    true true .eof ⟨⟨[], false⟩, 3, true, some [1, 2, 3, 4, 5, 6, 7], 0⟩
    (fun b hb => Option.noConfusion hb) (fun _ => by decide) (by decide)

/-- Modelled from the spec (§6): the new-format encoding of a full (final)
body length — one octet below 192, two octets up to 8383, else the five-octet
form.  Inverse of the `Full` cases of `parseBL` for lengths below `2^32`. -/
def encodeFullLen (n : Nat) : List Nat :=
  if n < 192 then [n]
  else if n < 8384 then [(n - 192) / 256 + 192, (n - 192) % 256]
  else [255, n / 2 ^ 24 % 256, n / 2 ^ 16 % 256, n / 2 ^ 8 % 256, n % 256]

/-- Modelled from the spec (§6): the one-octet partial body length header for
a chunk of `2 ^ k` bytes (`224 + k`, `k ≤ 30`). -/
def encodePartialLen (k : Nat) : List Nat :=
  [224 + k]

/-- A well-formed new-format chunk sequence after the initial chunk: each
intermediate chunk as (exponent, payload), then the final chunk's length
header and payload. -/
def encodeChunks : List (Nat × List Nat) → Nat → List Nat → List Nat
  | [], flen, fpay => encodeFullLen flen ++ fpay
  | (k, pay) :: rest, flen, fpay =>
    encodePartialLen k ++ (pay ++ encodeChunks rest flen fpay)

/-- Each intermediate chunk is admissible: exponent at most 30 and payload of
exactly `2 ^ k` bytes. -/
def wfChunks (cs : List (Nat × List Nat)) : Prop :=
  ∀ c ∈ cs, c.1 ≤ 30 ∧ c.2.length = 2 ^ c.1

/-- The concatenation of the intermediate chunk payloads. -/
def payloadsOf (cs : List (Nat × List Nat)) : List Nat :=
  (cs.map Prod.snd).flatten

theorem parseBL_encodeFullLen (n : Nat) (h : n < 2 ^ 32) (rest : List Nat) :
    parseBL (encodeFullLen n ++ rest) = some (.Full n, rest) := by
  by_cases h1 : n < 192
  · simp [encodeFullLen, parseBL, h1]
  · by_cases h2 : n < 8384
    · have hq : (n - 192) / 256 < 32 := by omega
      have ho1 : ¬ ((n - 192) / 256 + 192 < 192) := by omega
      have ho2 : (n - 192) / 256 + 192 < 224 := by omega
      simp only [encodeFullLen, if_neg h1, if_pos h2, List.cons_append,
        List.nil_append, parseBL, if_neg ho1, if_pos ho2]
      have hval : ((n - 192) / 256 + 192 - 192) * 256 + (n - 192) % 256 + 192
          = n := by omega
      rw [hval]
    · have ho1 : ¬ (255 < 192) := by omega
      have ho2 : ¬ (255 < 224) := by omega
      have ho3 : ¬ (255 < 255) := by omega
      simp only [encodeFullLen, if_neg h1, if_neg h2, List.cons_append,
        List.nil_append, parseBL, if_neg ho1, if_neg ho2, if_neg ho3]
      have hval : ((n / 2 ^ 24 % 256 * 256 + n / 2 ^ 16 % 256) * 256
          + n / 2 ^ 8 % 256) * 256 + n % 256 = n := by omega
      rw [hval]

theorem parseBL_encodePartialLen (k : Nat) (hk : k ≤ 30) (rest : List Nat) :
    parseBL (encodePartialLen k ++ rest) = some (.Partial (2 ^ k), rest) := by
  have ho1 : ¬ (224 + k < 192) := by omega
  have ho2 : ¬ (224 + k < 224) := by omega
  have ho3 : 224 + k < 255 := by omega
  have hm : (224 + k) % 32 = k := by omega
  simp only [encodePartialLen, List.cons_append, List.nil_append, parseBL,
    if_neg ho1, if_neg ho2, if_pos ho3, hm]

/-- De-chunking a well-formed encoded stream yields exactly the payload
concatenation: the framing bytes of every header are skipped. -/
theorem chunkStream_encode (cs : List (Nat × List Nat)) :
    ∀ (pay0 fpay : List Nat) (flen : Nat),
      wfChunks cs → fpay.length = flen → flen < 2 ^ 32 →
      chunkStream pay0.length false (pay0 ++ encodeChunks cs flen fpay) =
        pay0 ++ (payloadsOf cs ++ fpay) := by
  induction cs with
  | nil =>
    intro pay0 fpay flen _ hf hm
    rw [chunkStream_false, List.take_left, List.drop_left]
    simp only [encodeChunks]
    rw [parseBL_encodeFullLen flen hm fpay]
    show pay0 ++ chunkStream flen true fpay = pay0 ++ (payloadsOf [] ++ fpay)
    rw [chunkStream_true, ← hf, List.take_length]
    simp [payloadsOf]
  | cons c cs ih =>
    obtain ⟨k, pay⟩ := c
    intro pay0 fpay flen hwf hf hm
    obtain ⟨hk, hp⟩ := hwf (k, pay) (by simp)
    rw [chunkStream_false, List.take_left, List.drop_left]
    simp only [encodeChunks]
    rw [parseBL_encodePartialLen k hk (pay ++ encodeChunks cs flen fpay)]
    show pay0 ++ chunkStream (2 ^ k) false (pay ++ encodeChunks cs flen fpay) =
      pay0 ++ (payloadsOf ((k, pay) :: cs) ++ fpay)
    rw [show (2 : Nat) ^ k = pay.length from hp.symm]
    rw [ih pay fpay flen (fun c hc => hwf c (by simp [hc])) hf hm]
    simp [payloadsOf]

/-- Invariant of a de-chunking state over a well-formed encoded stream: once
on the last chunk nothing more is parsed; before that, the raw stream is the
rest of the current chunk's payload (exactly `pbl` bytes) followed by the
encodings of the remaining chunks. -/
def wfStream (flen : Nat) (fpay : List Nat) (pbl : Nat) (last : Bool)
    (rem : List Nat) : Prop :=
  last = true ∨
    ∃ pay cs, pay.length = pbl ∧ wfChunks cs ∧
      rem = pay ++ encodeChunks cs flen fpay

/-- Over a well-formed encoded stream whose source does not fail, the
buffering loop never ends with a pending error: every header parse
succeeds and an early end of the source is a plain short read. -/
theorem fillLoop_wf_noerr :
    ∀ (fuel amount : Nat) (buffered : List Nat) (r : Leaf) (pbl : Nat) (last : Bool)
      (flen : Nat) (fpay : List Nat),
      r.failAfter = false → flen < 2 ^ 32 → buffered.length ≤ amount →
      wfStream flen fpay pbl last r.rem →
      ∀ (g : List Nat) (r' : Leaf) (pbl' : Nat) (last' : Bool) (e : Option IoErr),
        fillLoop fuel amount buffered r pbl last = .done g r' pbl' last' e →
        e = none := by
  intro fuel
  induction fuel with
  | zero =>
    intro amount buffered r pbl last flen fpay _ _ _ _ g r' pbl' last' e h
    cases h
  | succ fuel ih =>
    intro amount buffered r pbl last flen fpay hfa hm hble hinv g r' pbl' last' e h
    simp only [fillLoop] at h
    by_cases h0 : 0 < min pbl (amount - buffered.length)
    · rw [if_pos h0, Leaf.read_eq] at h
      rw [if_neg (by rw [hfa]; simp)] at h
      simp only [] at h
      by_cases hs : (r.rem.take (min (min pbl (amount - buffered.length))
          r.rem.length)).length < min pbl (amount - buffered.length)
      · rw [if_pos hs] at h
        cases h
        rfl
      · rw [if_neg hs] at h
        have hlen : (r.rem.take (min (min pbl (amount - buffered.length))
            r.rem.length)).length = min (min pbl (amount - buffered.length))
            r.rem.length := by simp
        rw [hlen] at hs
        have ht : min (min pbl (amount - buffered.length)) r.rem.length
            = min pbl (amount - buffered.length) := by omega
        rw [ht] at h hlen
        rw [hlen] at h
        set t := min pbl (amount - buffered.length) with hT
        refine ih amount (buffered ++ r.rem.take t) ⟨r.rem.drop t, r.failAfter⟩
          (pbl - t) last flen fpay hfa hm (by simp; omega) ?_ g r' pbl' last' e h
        cases hinv with
        | inl hl => exact Or.inl hl
        | inr hx =>
          obtain ⟨pay, cs, hpl, hcs, hrem⟩ := hx
          refine Or.inr ⟨pay.drop t, cs, ?_, hcs, ?_⟩
          · rw [List.length_drop, hpl]
          · show (⟨r.rem.drop t, r.failAfter⟩ : Leaf).rem = _
            simp only []
            rw [hrem, List.drop_append_of_le_length (by omega)]
    · rw [if_neg h0] at h
      by_cases hbk : buffered.length = amount ∨ last = true
      · rw [if_pos hbk] at h
        cases h
        rfl
      · rw [if_neg hbk] at h
        have hp0 : pbl = 0 := by
          have : ¬ (buffered.length = amount) := fun hc => hbk (Or.inl hc)
          omega
        have hlast : last = false := by
          cases hL : last
          · rfl
          · exact absurd (Or.inr hL) hbk
        rw [if_neg (by omega : ¬ pbl ≠ 0)] at h
        have hinv' : ∃ cs, wfChunks cs ∧ r.rem = encodeChunks cs flen fpay := by
          cases hinv with
          | inl hl => rw [hlast] at hl; cases hl
          | inr hx =>
            obtain ⟨pay, cs, hpl, hcs, hrem⟩ := hx
            have hpay : pay = [] := by
              have : pay.length = 0 := by omega
              exact List.length_eq_zero.mp this
            exact ⟨cs, hcs, by rw [hrem, hpay, List.nil_append]⟩
        obtain ⟨cs, hcs, hrem⟩ := hinv'
        have hparse : ∃ bl rest, parseBL r.rem = some (bl, rest) := by
          cases cs with
          | nil =>
            exact ⟨.Full flen, fpay, by
              rw [hrem]; exact parseBL_encodeFullLen flen hm fpay⟩
          | cons c cs' =>
            obtain ⟨k, pay⟩ := c
            refine ⟨.Partial (2 ^ k), pay ++ encodeChunks cs' flen fpay, ?_⟩
            rw [hrem]
            simp only [encodeChunks]
            exact parseBL_encodePartialLen k ((hcs (k, pay) (by simp)).1) _
        obtain ⟨bl, rest, hP⟩ := hparse
        cases hB : body_length_new_format r with
        | ok bl2 r2 =>
          rw [hB] at h
          obtain ⟨hP2, hfa2⟩ := (body_length_agree r).1 bl2 r2 hB
          rw [hP] at hP2
          have hbl : bl2 = bl ∧ r2.rem = rest := by
            have hpair := Option.some.inj hP2
            exact ⟨(congrArg Prod.fst hpair).symm, (congrArg Prod.snd hpair).symm⟩
          cases cs with
          | nil =>
            have hPF : parseBL r.rem = some (.Full flen, fpay) := by
              rw [hrem]; exact parseBL_encodeFullLen flen hm fpay
            rw [hP] at hPF
            have heq := Option.some.inj hPF
            have hblF : bl = .Full flen := congrArg Prod.fst heq
            rw [hbl.1, hblF] at h
            exact ih amount buffered r2 flen true flen fpay
              (by rw [hfa2, hfa]) hm hble (Or.inl rfl) g r' pbl' last' e h
          | cons c cs' =>
            obtain ⟨k, pay⟩ := c
            have hPP : parseBL r.rem =
                some (.Partial (2 ^ k), pay ++ encodeChunks cs' flen fpay) := by
              rw [hrem]
              simp only [encodeChunks]
              exact parseBL_encodePartialLen k ((hcs (k, pay) (by simp)).1) _
            rw [hP] at hPP
            have heq := Option.some.inj hPP
            have hblP : bl = .Partial (2 ^ k) := congrArg Prod.fst heq
            have hrest : rest = pay ++ encodeChunks cs' flen fpay :=
              congrArg Prod.snd heq
            rw [hbl.1, hblP] at h
            refine ih amount buffered r2 (2 ^ k) false flen fpay
              (by rw [hfa2, hfa]) hm hble ?_ g r' pbl' last' e h
            refine Or.inr ⟨pay, cs', ?_, fun c hc => hcs c (by simp [hc]), ?_⟩
            · exact (hcs (k, pay) (by simp)).2
            · rw [hbl.2, hrest]
        | err e2 r2 =>
          have := (body_length_agree r).2.1 e2 r2 hB
          rw [hP] at this
          cases this
        | abort =>
          rw [hB] at h
          cases h

/-- The operations the concatenation law ranges over. -/
def isC1Op : Op → Bool
  | .data _ => true
  | .consume _ => true
  | .dataConsume _ => true
  | _ => false

def obsOk : Obs → Bool
  | .okv _ => true
  | _ => false

theorem pbf_consume_step (s : BufferedReaderPartialBodyFilter) (a : Nat)
    (hWF : cursorWF s) :
    ∀ v s', BufferedReaderPartialBodyFilter.consume s a = .ok v s' →
      cursorWF s' ∧ v.take a ++ pbfStream s' = pbfStream s := by
  intro v s' h
  cases hb : s.buffer with
  | some b =>
    simp only [BufferedReaderPartialBodyFilter.consume, hb] at h
    split at h
    · rename_i hle
      rw [CRes.ok.injEq] at h
      obtain ⟨hv, hs'⟩ := h
      subst hv
      subst hs'
      constructor
      · intro b' hb'
        cases hb'
        exact hle
      · rw [pbfStream_some hb]
        simp only [pbfStream]
        rw [show b.drop (s.cursor + a) = (b.drop s.cursor).drop a from by
          rw [List.drop_drop, Nat.add_comm]]
        rw [← List.append_assoc, List.take_append_drop]
    · cases h
  | none =>
    simp only [BufferedReaderPartialBodyFilter.consume, hb] at h
    split at h
    · rename_i hle
      split at h
      · rename_i w r2 heq
        rw [CRes.ok.injEq] at h
        obtain ⟨hv, hs'⟩ := h
        subst hv
        subst hs'
        simp only [Leaf.consume] at heq
        by_cases hler : a ≤ s.reader.rem.length
        · rw [if_pos hler] at heq
          rw [CRes.ok.injEq] at heq
          obtain ⟨hw, hr2⟩ := heq
          subst hw
          subst hr2
          constructor
          · intro b' hb'
            cases hb'
          · rw [pbfStream_none hb]
            simp only [pbfStream, List.nil_append]
            exact (chunkStream_take hle s.last s.reader.rem).symm
        · rw [if_neg hler] at heq
          cases heq
      · cases h
    · cases h

theorem pbf_data_step (s : BufferedReaderPartialBodyFilter) (a : Nat)
    (hWF : cursorWF s) :
    ∀ v s', BufferedReaderPartialBodyFilter.data s a = .ok v s' →
      cursorWF s' ∧ pbfStream s' = pbfStream s := by
  intro v s' h
  cases hb : s.buffer with
  | some b =>
    by_cases hfit : b.length - s.cursor < a
    · have hpre : ∀ c, s.buffer = some c → c.length - s.cursor < a := by
        intro c hc
        rw [hb] at hc
        cases hc
        exact hfit
      have hmain : (match BufferedReaderPartialBodyFilter.do_fill_buffer s a with
          | .ok sf => BufferedReaderPartialBodyFilter.serve sf a false false
          | .err e sf => .err e sf
          | .abort => .abort) = .ok v s' := by
        rw [← h]
        simp only [BufferedReaderPartialBodyFilter.data,
          BufferedReaderPartialBodyFilter.data_helper, hb, if_pos hfit]
      cases hF : BufferedReaderPartialBodyFilter.do_fill_buffer s a with
      | ok sf =>
        rw [hF] at hmain
        obtain ⟨g, hg, hc0, hps, -, -⟩ := (do_fill_buffer_spec s a hpre).1 sf hF
        simp only [BufferedReaderPartialBodyFilter.serve, hg,
          Bool.false_eq_true, false_and, if_false] at hmain
        rw [OpRes.ok.injEq] at hmain
        obtain ⟨-, hs'⟩ := hmain
        subst hs'
        refine ⟨?_, hps⟩
        intro b' hb'
        rw [hg] at hb'
        cases hb'
        rw [hc0]
        omega
      | err e sf =>
        rw [hF] at hmain
        cases hmain
      | abort =>
        rw [hF] at hmain
        cases hmain
    · have hmain : BufferedReaderPartialBodyFilter.serve s a false false = .ok v s' := by
        rw [← h]
        simp only [BufferedReaderPartialBodyFilter.data,
          BufferedReaderPartialBodyFilter.data_helper, hb]
        rw [if_neg (by omega)]
      simp only [BufferedReaderPartialBodyFilter.serve, hb,
        Bool.false_eq_true, false_and, if_false] at hmain
      rw [OpRes.ok.injEq] at hmain
      obtain ⟨-, hs'⟩ := hmain
      subst hs'
      exact ⟨hWF, rfl⟩
  | none =>
    by_cases hfast : a ≤ s.partial_body_length ∨ s.last = true
    · simp only [BufferedReaderPartialBodyFilter.data,
        BufferedReaderPartialBodyFilter.data_helper, hb, if_pos hfast,
        Bool.false_and, Bool.and_false, if_true, Bool.false_eq_true, if_false] at h
      split at h
      · rename_i buffer r2 heq
        rw [if_neg (by simp)] at h
        rw [OpRes.ok.injEq] at h
        obtain ⟨-, hs'⟩ := h
        subst hs'
        simp only [Leaf.data] at heq
        by_cases hfail : s.reader.failAfter = true ∧ s.reader.rem.length < a
        · rw [if_pos hfail] at heq
          cases heq
        · rw [if_neg hfail] at heq
          rw [OpRes.ok.injEq] at heq
          obtain ⟨-, hr2⟩ := heq
          subst hr2
          constructor
          · intro b' hb'
            cases hb'
          · rw [pbfStream_none hb]
            simp only [pbfStream, List.nil_append]
      · rename_i heq
        cases h
      · rename_i heq
        cases h
    · have hpre : ∀ c, s.buffer = some c → c.length - s.cursor < a := by
        intro c hc
        rw [hb] at hc
        cases hc
      have hmain : (match BufferedReaderPartialBodyFilter.do_fill_buffer s a with
          | .ok sf => BufferedReaderPartialBodyFilter.serve sf a false false
          | .err e sf => .err e sf
          | .abort => .abort) = .ok v s' := by
        rw [← h]
        simp only [BufferedReaderPartialBodyFilter.data,
          BufferedReaderPartialBodyFilter.data_helper, hb]
        rw [if_neg hfast]
      cases hF : BufferedReaderPartialBodyFilter.do_fill_buffer s a with
      | ok sf =>
        rw [hF] at hmain
        obtain ⟨g, hg, hc0, hps, -, -⟩ := (do_fill_buffer_spec s a hpre).1 sf hF
        simp only [BufferedReaderPartialBodyFilter.serve, hg,
          Bool.false_eq_true, false_and, if_false] at hmain
        rw [OpRes.ok.injEq] at hmain
        obtain ⟨-, hs'⟩ := hmain
        subst hs'
        refine ⟨?_, hps⟩
        intro b' hb'
        rw [hg] at hb'
        cases hb'
        rw [hc0]
        omega
      | err e sf =>
        rw [hF] at hmain
        cases hmain
      | abort =>
        rw [hF] at hmain
        cases hmain

theorem pbf_dc_fill_step (s sf : BufferedReaderPartialBodyFilter) (a : Nat)
    (v : List Nat) (s' : BufferedReaderPartialBodyFilter)
    (hpre : ∀ b, s.buffer = some b → b.length - s.cursor < a)
    (hF : BufferedReaderPartialBodyFilter.do_fill_buffer s a = .ok sf)
    (hserve : BufferedReaderPartialBodyFilter.serve sf a false true = .ok v s') :
    cursorWF s' ∧ v.take (min a v.length) ++ pbfStream s' = pbfStream s := by
  obtain ⟨g, hg, hc0, hps, hglen, hgtake⟩ := (do_fill_buffer_spec s a hpre).1 sf hF
  simp only [BufferedReaderPartialBodyFilter.serve, hg, hc0, List.drop_zero,
    Nat.zero_add, Bool.false_eq_true, false_and, if_false, if_true] at hserve
  rw [OpRes.ok.injEq] at hserve
  obtain ⟨hv, hs'⟩ := hserve
  subst hv
  subst hs'
  constructor
  · intro b' hb'
    cases hb'
    show min a g.length ≤ g.length
    omega
  · rw [← hps, pbfStream_some hg, hc0, List.drop_zero]
    simp only [pbfStream]
    rw [← List.append_assoc, List.take_append_drop]

theorem pbf_dc_step (s : BufferedReaderPartialBodyFilter) (a : Nat)
    (hWF : cursorWF s) :
    ∀ v s', BufferedReaderPartialBodyFilter.data_consume s a = .ok v s' →
      cursorWF s' ∧ v.take (min a v.length) ++ pbfStream s' = pbfStream s := by
  intro v s' h
  cases hb : s.buffer with
  | some b =>
    by_cases hfit : b.length - s.cursor < a
    · have hpre : ∀ c, s.buffer = some c → c.length - s.cursor < a := by
        intro c hc
        rw [hb] at hc
        cases hc
        exact hfit
      have hmain : (match BufferedReaderPartialBodyFilter.do_fill_buffer s a with
          | .ok sf => BufferedReaderPartialBodyFilter.serve sf a false true
          | .err e sf => .err e sf
          | .abort => .abort) = .ok v s' := by
        rw [← h]
        simp only [BufferedReaderPartialBodyFilter.data_consume,
          BufferedReaderPartialBodyFilter.data_helper, hb, if_pos hfit]
      cases hF : BufferedReaderPartialBodyFilter.do_fill_buffer s a with
      | ok sf =>
        rw [hF] at hmain
        exact pbf_dc_fill_step s sf a v s' hpre hF hmain
      | err e sf =>
        rw [hF] at hmain
        cases hmain
      | abort =>
        rw [hF] at hmain
        cases hmain
    · simp only [BufferedReaderPartialBodyFilter.data_consume,
        BufferedReaderPartialBodyFilter.data_helper, hb, if_neg hfit,
        BufferedReaderPartialBodyFilter.serve, Bool.false_eq_true, false_and,
        if_false, if_true] at h
      rw [OpRes.ok.injEq] at h
      obtain ⟨hv, hs'⟩ := h
      subst hv
      subst hs'
      have hWFb := hWF b hb
      have hdl : (b.drop s.cursor).length = b.length - s.cursor := by simp
      constructor
      · intro b' hb'
        cases hb'
        show s.cursor + min a (b.drop s.cursor).length ≤ b.length
        omega
      · rw [pbfStream_some hb]
        simp only [pbfStream]
        rw [show b.drop (s.cursor + min a (b.drop s.cursor).length)
            = (b.drop s.cursor).drop (min a (b.drop s.cursor).length) from by
          rw [List.drop_drop, Nat.add_comm]]
        rw [← List.append_assoc, List.take_append_drop]
  | none =>
    by_cases hfast : a ≤ s.partial_body_length ∨ s.last = true
    · set R := s.reader.rem with hRdef
      set P := s.partial_body_length with hPdef
      simp only [BufferedReaderPartialBodyFilter.data_consume,
        BufferedReaderPartialBodyFilter.data_helper, hb, if_pos hfast,
        Bool.false_and, Bool.and_false, if_true, Bool.false_eq_true, if_false] at h
      rw [Leaf.data_consume_eq] at h
      by_cases hfail : s.reader.failAfter = true ∧ s.reader.rem.length < a
      · rw [if_pos hfail] at h
        simp only [] at h
        cases h
      · rw [if_neg hfail] at h
        simp only [Bool.false_eq_true, false_and, if_false] at h
        rw [OpRes.ok.injEq] at h
        obtain ⟨hv, hs'⟩ := h
        subst hv
        subst hs'
        set ab := min R.length P with hABdef
        set n := min a ab with hNdef
        set m := min a R.length with hMdef
        have hvlen : (R.take ab).length = ab := by simp; omega
        constructor
        · intro b' hb'
          cases hb'
        · rw [pbfStream_none hb]
          simp only [pbfStream, List.nil_append]
          rw [show min a (R.take ab).length = n from by rw [hvlen]]
          rw [List.take_take, show min n ab = n from by omega]
          cases hL : s.last with
          | false =>
            have hap : a ≤ P := by
              rcases hfast with hf | hf
              · exact hf
              · rw [hL] at hf
                cases hf
            have hmn : m = n := by omega
            rw [← hmn]
            exact (chunkStream_take (show m ≤ P by omega) false R).symm
          | true =>
            rw [chunkStream_true, chunkStream_true]
            by_cases hmP : m ≤ P
            · have hmn : m = n := by omega
              rw [← hmn]
              have h2 : R.take m ++ (R.drop m).take (P - m)
                  = R.take (m + (P - m)) := (List.take_add R m (P - m)).symm
              rw [h2]
              congr 1
              omega
            · rw [show P - n = 0 from by omega]
              rw [show n = P from by omega]
              simp
    · have hpre : ∀ c, s.buffer = some c → c.length - s.cursor < a := by
        intro c hc
        rw [hb] at hc
        cases hc
      have hmain : (match BufferedReaderPartialBodyFilter.do_fill_buffer s a with
          | .ok sf => BufferedReaderPartialBodyFilter.serve sf a false true
          | .err e sf => .err e sf
          | .abort => .abort) = .ok v s' := by
        rw [← h]
        simp only [BufferedReaderPartialBodyFilter.data_consume,
          BufferedReaderPartialBodyFilter.data_helper, hb]
        rw [if_neg hfast]
      cases hF : BufferedReaderPartialBodyFilter.do_fill_buffer s a with
      | ok sf =>
        rw [hF] at hmain
        exact pbf_dc_fill_step s sf a v s' hpre hF hmain
      | err e sf =>
        rw [hF] at hmain
        cases hmain
      | abort =>
        rw [hF] at hmain
        cases hmain

theorem delivered_cons (op : Op) (ops : List Op) (o : Obs) (tr : List Obs) :
    delivered (op :: ops) (o :: tr) = consumedOf op o ++ delivered ops tr := by
  simp [delivered]

/-- Trace induction for the concatenation law: over `data`, `consume` and
`data_consume` operations, the bytes delivered so far are always an initial
segment of the filter's logical stream, and as long as no operation has
failed the delivered bytes plus the remaining stream account exactly for the
whole stream. -/
theorem pbf_trace_c1 :
    ∀ (ops : List Op) (s : BufferedReaderPartialBodyFilter), cursorWF s →
      (∀ op ∈ ops, isC1Op op = true) →
      (∃ k, delivered ops (runTr pbfImpl s ops).1 = (pbfStream s).take k) ∧
      ((∀ o ∈ (runTr pbfImpl s ops).1, obsOk o = true) →
        delivered ops (runTr pbfImpl s ops).1 ++
          pbfStream (runTr pbfImpl s ops).2 = pbfStream s) := by
  intro ops
  induction ops with
  | nil =>
    intro s hWF _
    constructor
    · exact ⟨0, by simp [runTr, delivered]⟩
    · intro _
      simp [runTr, delivered]
  | cons op ops ih =>
    intro s hWF hops
    have hopc : isC1Op op = true := hops op (by simp)
    have hopsrest : ∀ o ∈ ops, isC1Op o = true := fun o ho => hops o (by simp [ho])
    cases hR : runOp pbfImpl s op with
    | ok v s' =>
      have hstep : cursorWF s' ∧
          consumedOf op (.okv v) ++ pbfStream s' = pbfStream s := by
        cases op with
        | data a =>
          have hd : BufferedReaderPartialBodyFilter.data s a = .ok v s' := by
            simpa [runOp, pbfImpl] using hR
          have := pbf_data_step s a hWF v s' hd
          exact ⟨this.1, by simp [consumedOf, this.2]⟩
        | consume a =>
          simp only [runOp, pbfImpl] at hR
          split at hR
          · rename_i w t heq
            rw [OpRes.ok.injEq] at hR
            obtain ⟨hw, ht⟩ := hR
            subst hw
            subst ht
            have := pbf_consume_step s a hWF w t heq
            exact ⟨this.1, by simpa [consumedOf] using this.2⟩
          · cases hR
        | dataConsume a =>
          have hd : BufferedReaderPartialBodyFilter.data_consume s a = .ok v s' := by
            simpa [runOp, pbfImpl] using hR
          have := pbf_dc_step s a hWF v s' hd
          exact ⟨this.1, by simpa [consumedOf] using this.2⟩
        | dataHard a => simp [isC1Op] at hopc
        | dataConsumeHard a => simp [isC1Op] at hopc
        | readOp n => simp [isC1Op] at hopc
      obtain ⟨hWF', heq⟩ := hstep
      have htr : runTr pbfImpl s (op :: ops) =
          (.okv v :: (runTr pbfImpl s' ops).1, (runTr pbfImpl s' ops).2) := by
        simp [runTr, hR]
      have hcs : (pbfStream s).take (consumedOf op (.okv v)).length
          = consumedOf op (.okv v) := by
        rw [← heq]
        exact List.take_left _ _
      have hds : (pbfStream s).drop (consumedOf op (.okv v)).length
          = pbfStream s' := by
        rw [← heq]
        exact List.drop_left _ _
      obtain ⟨⟨k', hk'⟩, hall⟩ := ih s' hWF' hopsrest
      constructor
      · refine ⟨(consumedOf op (.okv v)).length + k', ?_⟩
        rw [htr]
        rw [List.take_add, hcs, hds, ← hk']
        exact delivered_cons op ops (.okv v) (runTr pbfImpl s' ops).1
      · intro hok
        have hok' : ∀ o ∈ (runTr pbfImpl s' ops).1, obsOk o = true := by
          intro o ho
          refine hok o ?_
          rw [htr]
          simp [ho]
        have hrest := hall hok'
        rw [htr]
        rw [delivered_cons, List.append_assoc, hrest, heq]
    | err e s' =>
      have hnoc : consumedOf op (.errv e) = [] := by
        cases op <;> rfl
      have htr : runTr pbfImpl s (op :: ops) = ([.errv e], s') := by
        simp [runTr, hR]
      constructor
      · refine ⟨0, ?_⟩
        rw [htr]
        cases ops with
        | nil => simp [delivered, hnoc]
        | cons op2 ops2 => simp [delivered, hnoc]
      · intro hok
        have := hok (.errv e) (by rw [htr]; simp)
        simp [obsOk] at this
    | abort =>
      have hnoc : consumedOf op .abortv = [] := by
        cases op <;> rfl
      have htr : runTr pbfImpl s (op :: ops) = ([.abortv], s) := by
        simp [runTr, hR]
      constructor
      · refine ⟨0, ?_⟩
        rw [htr]
        cases ops with
        | nil => simp [delivered, hnoc]
        | cons op2 ops2 => simp [delivered, hnoc]
      · intro hok
        have := hok .abortv (by rw [htr]; simp)
        simp [obsOk] at this

/-- A single `data_consume` on a fresh filter over a well-formed encoded
stream succeeds whenever the request does not exceed the total payload, and
its view holds at least the requested bytes — the next `a` payload bytes in
one contiguous view, all header framing bytes skipped. -/
theorem c1_boundary (pay0 fpay : List Nat) (cs : List (Nat × List Nat))
    (flen a : Nat)
    (hwf : wfChunks cs) (hf : fpay.length = flen) (hm : flen < 2 ^ 32)
    (ha : a ≤ (pay0 ++ (payloadsOf cs ++ fpay)).length) :
    ∃ v s', BufferedReaderPartialBodyFilter.data_consume
        (.new ⟨pay0 ++ encodeChunks cs flen fpay, false⟩ pay0.length) a =
        .ok v s' ∧
      a ≤ v.length ∧
      v.take a = (pay0 ++ (payloadsOf cs ++ fpay)).take a := by
  have hrl : pay0.length ≤ (pay0 ++ encodeChunks cs flen fpay).length := by simp
  have hstream : chunkStream pay0.length false (pay0 ++ encodeChunks cs flen fpay)
      = pay0 ++ (payloadsOf cs ++ fpay) :=
    chunkStream_encode cs pay0 fpay flen hwf hf hm
  by_cases hfast : a ≤ pay0.length
  · have hcomp : BufferedReaderPartialBodyFilter.data_consume
        (.new ⟨pay0 ++ encodeChunks cs flen fpay, false⟩ pay0.length) a =
        .ok ((pay0 ++ encodeChunks cs flen fpay).take
              (min (pay0 ++ encodeChunks cs flen fpay).length pay0.length))
          ⟨⟨(pay0 ++ encodeChunks cs flen fpay).drop
              (min a (pay0 ++ encodeChunks cs flen fpay).length), false⟩,
            pay0.length - min a (min (pay0 ++ encodeChunks cs flen fpay).length
              pay0.length), false, none, 0⟩ := by
      simp only [BufferedReaderPartialBodyFilter.data_consume,
        BufferedReaderPartialBodyFilter.data_helper,
        BufferedReaderPartialBodyFilter.new]
      rw [if_pos (Or.inl hfast)]
      rw [Leaf.data_consume_eq]
      rw [if_neg (by simp)]
      simp
    refine ⟨_, _, hcomp, ?_, ?_⟩
    · simp
      omega
    · rw [List.take_take, show min a (min (pay0 ++ encodeChunks cs flen fpay).length
        pay0.length) = a from by omega]
      rw [List.take_append_of_le_length hfast,
        List.take_append_of_le_length hfast]
  · have hnofast : ¬ (a ≤ pay0.length ∨ (false : Bool) = true) := by
      simp [hfast]
    have hnoabort := fillLoop_no_abort
      (fillFuel a ⟨pay0 ++ encodeChunks cs flen fpay, false⟩) a []
      ⟨pay0 ++ encodeChunks cs flen fpay, false⟩ pay0.length false (by simp)
      (by simp only [fillFuel, List.length_nil]; omega)
    cases hL : fillLoop (fillFuel a ⟨pay0 ++ encodeChunks cs flen fpay, false⟩) a
        [] ⟨pay0 ++ encodeChunks cs flen fpay, false⟩ pay0.length false with
    | abort => exact absurd hL hnoabort
    | done g r' pbl' last' e =>
      have he : e = none := fillLoop_wf_noerr
        (fillFuel a ⟨pay0 ++ encodeChunks cs flen fpay, false⟩) a []
        ⟨pay0 ++ encodeChunks cs flen fpay, false⟩ pay0.length false flen fpay
        rfl hm (by simp) (Or.inr ⟨pay0, cs, rfl, hwf, rfl⟩) g r' pbl' last' e hL
      subst he
      have hF : BufferedReaderPartialBodyFilter.do_fill_buffer
          ⟨⟨pay0 ++ encodeChunks cs flen fpay, false⟩, pay0.length, false, none, 0⟩
          a = .ok ⟨r', pbl', last', some g, 0⟩ := by
        simp only [BufferedReaderPartialBodyFilter.do_fill_buffer]
        rw [if_neg (by simp)]
        rw [hL]
      have hpre : ∀ b, (⟨⟨pay0 ++ encodeChunks cs flen fpay, false⟩, pay0.length,
          false, none, 0⟩ : BufferedReaderPartialBodyFilter).buffer = some b →
          b.length - (⟨⟨pay0 ++ encodeChunks cs flen fpay, false⟩, pay0.length,
          false, none, 0⟩ : BufferedReaderPartialBodyFilter).cursor < a :=
        fun b hb => Option.noConfusion hb
      obtain ⟨g2, hg2, hc02, hps2, hglen2, hgtake2⟩ :=
        (do_fill_buffer_spec _ a hpre).1 _ hF
      have hgg : g2 = g := (Option.some.inj hg2).symm
      subst hgg
      have hps0 : pbfStream ⟨⟨pay0 ++ encodeChunks cs flen fpay, false⟩,
          pay0.length, false, none, 0⟩ = pay0 ++ (payloadsOf cs ++ fpay) := by
        rw [pbfStream_none rfl]
        exact hstream
      rw [hps0] at hglen2 hgtake2
      have hga : g2.length = a := by omega
      have hserve : BufferedReaderPartialBodyFilter.serve
          ⟨r', pbl', last', some g2, 0⟩ a false true =
          .ok g2 ⟨r', pbl', last', some g2, min a g2.length⟩ := by
        simp only [BufferedReaderPartialBodyFilter.serve, List.drop_zero,
          Nat.zero_add, Bool.false_eq_true, false_and, if_false, if_true]
      have hdc : BufferedReaderPartialBodyFilter.data_consume
          ⟨⟨pay0 ++ encodeChunks cs flen fpay, false⟩, pay0.length, false, none, 0⟩
          a = .ok g2 ⟨r', pbl', last', some g2, min a g2.length⟩ := by
        simp only [BufferedReaderPartialBodyFilter.data_consume,
          BufferedReaderPartialBodyFilter.data_helper]
        rw [if_neg hnofast, hF]
        show BufferedReaderPartialBodyFilter.serve
          ⟨r', pbl', last', some g2, 0⟩ a false true = _
        exact hserve
      refine ⟨g2, ⟨r', pbl', last', some g2, min a g2.length⟩, hdc, by omega, ?_⟩
      rw [hgtake2, hga, List.take_take]
      simp

/-- C1: over a filter constructed on a well-formed new-format chunk sequence
(an initial chunk of `pay0.length` bytes, intermediate chunks of `2 ^ k`
bytes each introduced by a one-octet partial length header, and a final chunk
introduced by a full length header), the bytes delivered by any sequence of
`data`/`data_consume`/`consume` operations are, in order, an initial segment
of the concatenation of the chunk payloads — every header's 1–5 framing
bytes skipped — and while no operation has failed the delivered bytes plus
the remaining stream account for the whole concatenation; moreover a single
`data_consume a` within the total payload succeeds and returns at least `a`
payload bytes in one contiguous view, also when `a` spans chunk
boundaries. -/
theorem C1_concatenation_law :
    ∀ (pay0 fpay : List Nat) (cs : List (Nat × List Nat)) (flen : Nat),
      wfChunks cs → fpay.length = flen → flen < 2 ^ 32 →
      (∀ ops : List Op, (∀ op ∈ ops, isC1Op op = true) →
        (∃ k, delivered ops (runTr pbfImpl
            (.new ⟨pay0 ++ encodeChunks cs flen fpay, false⟩ pay0.length) ops).1 =
          (pay0 ++ (payloadsOf cs ++ fpay)).take k) ∧
        ((∀ o ∈ (runTr pbfImpl
            (.new ⟨pay0 ++ encodeChunks cs flen fpay, false⟩ pay0.length) ops).1,
            obsOk o = true) →
          delivered ops (runTr pbfImpl
            (.new ⟨pay0 ++ encodeChunks cs flen fpay, false⟩ pay0.length) ops).1 ++
            pbfStream (runTr pbfImpl
              (.new ⟨pay0 ++ encodeChunks cs flen fpay, false⟩ pay0.length) ops).2 =
            pay0 ++ (payloadsOf cs ++ fpay))) ∧
      (∀ a, a ≤ (pay0 ++ (payloadsOf cs ++ fpay)).length →
        ∃ v s', BufferedReaderPartialBodyFilter.data_consume
            (.new ⟨pay0 ++ encodeChunks cs flen fpay, false⟩ pay0.length) a =
            .ok v s' ∧
          a ≤ v.length ∧
          v.take a = (pay0 ++ (payloadsOf cs ++ fpay)).take a) := by
  intro pay0 fpay cs flen hwf hf hm
  have hstream : pbfStream
      (.new ⟨pay0 ++ encodeChunks cs flen fpay, false⟩ pay0.length) =
      pay0 ++ (payloadsOf cs ++ fpay) := by
    rw [pbfStream_none rfl]
    exact chunkStream_encode cs pay0 fpay flen hwf hf hm
  constructor
  · intro ops hops
    have htr := pbf_trace_c1 ops
      (.new ⟨pay0 ++ encodeChunks cs flen fpay, false⟩ pay0.length)
      (fun b hb => Option.noConfusion hb) hops
    rw [hstream] at htr
    exact htr
  · intro a ha
    exact c1_boundary pay0 fpay cs flen a hwf hf hm ha

/-- Witness for C1: initial chunk `[1, 2]`, one intermediate chunk `[3, 4]`
(header octet 225), final chunk `[5, 6, 7]` (header octet 3); a spanning
`data_consume 5` returns the first five payload bytes contiguously. -/
theorem C1_concatenation_law_witness :
    ∃ v s', BufferedReaderPartialBodyFilter.data_consume
        (.new ⟨[1, 2] ++ encodeChunks [(1, [3, 4])] 3 [5, 6, 7], false⟩
          ([1, 2] : List Nat).length) 5 = .ok v s' ∧
      5 ≤ v.length ∧
      v.take 5 =
        (([1, 2] : List Nat) ++ (payloadsOf [(1, [3, 4])] ++ [5, 6, 7])).take 5 :=
  (C1_concatenation_law [1, 2] [5, 6, 7] [(1, [3, 4])] 3
    (by unfold wfChunks; decide) (by decide) (by decide)).2 5 (by decide)
